import Mathlib

/-!
# Verification of `createEditorButton` (src/components/TextEditor/utils.js)

The function resolves a toolbar option against the `commands` registry:

* an array is mapped element by element with the same function,
* a value whose `typeof` is `'object'` is returned as it is,
* a value that is not a string gives `null`,
* a string is looked up in `commands`; a falsy lookup gives `null`, and for the
  key `'TableOfContents'` two console calls are made first.

JavaScript values are embedded as a tree type, the registry `commands` (the
default export of `./commands`, which is not part of the sources at hand) is a
parameter of the embedding, and the console is an explicit list of calls that is
threaded through the function. The registry is a plain object: a read of a key
it does not hold gives what it inherits from `Object.prototype`. A second
embedding bounds the call stack and fails when a call nests too deep. A third
one keeps arrays and objects in a heap; it is shown to agree with the first one
and is used for what a call may change in place.
-/

namespace TextEditor

/-- The numbers of JavaScript, as far as `typeof` and truthiness can tell them
apart: `NaN`, the negative zero, the two infinities and the finite values. -/
inductive JSNumber where
  | nan
  | negZero
  | posInfinity
  | negInfinity
  | finite (q : ℚ)
  deriving DecidableEq

/-- JavaScript values. Objects that are not arrays are never inspected by the
function, so they are represented by an identifier only; the same holds for
functions and symbols. -/
inductive JSValue where
  | undefined
  | null
  | boolean (b : Bool)
  | number (x : JSNumber)
  | bigint (n : ℤ)
  | string (s : String)
  | symbol (id : ℕ)
  | function (id : ℕ)
  | object (id : ℕ)
  | array (elems : List JSValue)

/-- The level of a console call: `console.error` or `console.log`. -/
inductive ConsoleLevel where
  | error
  | log
  deriving DecidableEq

/-- One call of a console method, with its arguments. -/
structure ConsoleCall where
  level : ConsoleLevel
  args : List JSValue

/-- What the function can read and write besides its argument: the imported
`commands` object, given by its own properties in iteration order, and the
console calls made so far. -/
structure World where
  commands : List (String × JSValue)
  console : List ConsoleCall

/-- The `typeof` operator. -/
def typeof : JSValue → String
  | .undefined => "undefined"
  | .null => "object"
  | .boolean _ => "boolean"
  | .number _ => "number"
  | .bigint _ => "bigint"
  | .string _ => "string"
  | .symbol _ => "symbol"
  | .function _ => "function"
  | .object _ => "object"
  | .array _ => "object"

/-- The test `option instanceof Array`. -/
def instanceofArray : JSValue → Bool
  | .array _ => true
  | _ => false

/-- Truthiness of a number: zero, negative zero and `NaN` are falsy. -/
def JSNumber.toBoolean : JSNumber → Bool
  | .nan => false
  | .negZero => false
  | .posInfinity => true
  | .negInfinity => true
  | .finite q => decide (q ≠ 0)

/-- Truthiness (`ToBoolean`), as used by `!button`. -/
def toBoolean : JSValue → Bool
  | .undefined => false
  | .null => false
  | .boolean b => b
  | .number x => x.toBoolean
  | .bigint n => decide (n ≠ 0)
  | .string s => decide (s ≠ "")
  | .symbol _ => true
  | .function _ => true
  | .object _ => true
  | .array _ => true

/-- What `commands`, a plain object, does not hold itself but inherits from
`Object.prototype`: eleven functions, and the accessor `__proto__`, whose read
gives `Object.prototype` itself, the object with the identifier 0. -/
def objectPrototype : List (String × JSValue) :=
  [("constructor", .function 0), ("__defineGetter__", .function 1),
    ("__defineSetter__", .function 2), ("hasOwnProperty", .function 3),
    ("__lookupGetter__", .function 4), ("__lookupSetter__", .function 5),
    ("isPrototypeOf", .function 6), ("propertyIsEnumerable", .function 7),
    ("toString", .function 8), ("valueOf", .function 9), ("__proto__", .object 0),
    ("toLocaleString", .function 10)]

/-- The property read `commands[key]`: the value that `commands` holds under the
key; when it holds none, the value it inherits from `Object.prototype` under the
key; and `undefined` when there is none either. -/
def getProperty (commands : List (String × JSValue)) (key : String) : JSValue :=
  match commands.lookup key with
  | some v => v
  | none => (objectPrototype.lookup key).getD .undefined

/-- The list `Object.keys(commands)`. -/
def objectKeys (commands : List (String × JSValue)) : List String :=
  commands.map Prod.fst

/-- The call `console.error(...args)`. -/
def consoleError (args : List JSValue) (w : World) : World :=
  { w with console := w.console ++ [⟨.error, args⟩] }

/-- The call `console.log(...args)`. -/
def consoleLog (args : List JSValue) (w : World) : World :=
  { w with console := w.console ++ [⟨.log, args⟩] }

/-- The message of the `console.error` call. -/
def notFoundMessage : String :=
  "❌ TableOfContents command not found in commands object!"

/-- Lines 7 to 21 of `createEditorButton`: what the function does with an option
that is not an array. -/
def createEditorButtonNonArray (option : JSValue) (w : World) : JSValue × World :=
  if typeof option = "object" then
    (option, w)
  else if typeof option ≠ "string" then
    (.null, w)
  else
    match option with
    | .string key =>
      let button := getProperty w.commands key
      if !(toBoolean button) then
        if key = "TableOfContents" then
          let w1 := consoleError [.string notFoundMessage] w
          let w2 := consoleLog
            [.string "Available commands:",
              .array (((objectKeys w1.commands).take 20).map JSValue.string)] w1
          (.null, w2)
        else
          (.null, w)
      else
        (button, w)
    | _ => (.null, w)

mutual
/-- The function `createEditorButton(option)`, run in a world `w`: it gives the
returned value and the world after the call. -/
def createEditorButton : JSValue → World → JSValue × World
  | .array elems, w =>
    let r := mapCreateEditorButton elems w
    (.array r.1, r.2)
  | option, w => createEditorButtonNonArray option w
/-- The call `option.map(createEditorButton)` on the elements of an array, from
left to right. -/
def mapCreateEditorButton : List JSValue → World → List JSValue × World
  | [], w => ([], w)
  | x :: xs, w =>
    let r := createEditorButton x w
    let rs := mapCreateEditorButton xs r.2
    (r.1 :: rs.1, rs.2)
end

/-- The element reached from a value by a list of array indices, as in
`option[i][j]`; `none` when an index leaves an array or meets a value that is
not an array. -/
def JSValue.atPath : JSValue → List ℕ → Option JSValue
  | v, [] => some v
  | .array elems, i :: p =>
    match elems[i]? with
    | some x => x.atPath p
    | none => none
  | _, _ :: _ => none

/-! ## A call stack of bounded size

The engine gives up a call that nests deeper than its call stack allows. The
embedding below counts the activations of `createEditorButton` that the stack
still has room for and fails when there is none left. -/

/-- The errors a call can raise: the `RangeError` of an exhausted call stack. -/
inductive JSError where
  | rangeError
  deriving DecidableEq

/-- The call `option.map(callback)` for a callback that may throw: the elements
are visited from left to right, and an error of the callback ends the loop and
is passed on. -/
def mapWithStack (callback : JSValue → World → Except JSError (JSValue × World)) :
    List JSValue → World → Except JSError (List JSValue × World)
  | [], w => .ok ([], w)
  | x :: xs, w =>
    match callback x w with
    | .ok (y, w1) =>
      match mapWithStack callback xs w1 with
      | .ok (ys, w2) => .ok (y :: ys, w2)
      | .error e => .error e
    | .error e => .error e

/-- The function `createEditorButton(option)` on a call stack with room for
`limit` more activations of the function: a call with no room left raises a
`RangeError`, and the calls made by `option.map` have room for one less. -/
def createEditorButtonStack : ℕ → JSValue → World → Except JSError (JSValue × World)
  | 0, _, _ => .error .rangeError
  | limit + 1, .array elems, w =>
    match mapWithStack (createEditorButtonStack limit) elems w with
    | .ok (ys, w') => .ok (.array ys, w')
    | .error e => .error e
  | _ + 1, option, w => .ok (createEditorButtonNonArray option w)

mutual
/-- The number of activations of `createEditorButton` that are on the stack at
the deepest point of a call: one for the call itself, and for an array those of
the element that needs the most. -/
def JSValue.frames : JSValue → ℕ
  | .array elems => framesList elems + 1
  | _ => 1
/-- The largest number of activations needed by a value of a list. -/
def framesList : List JSValue → ℕ
  | [] => 0
  | x :: xs => max x.frames (framesList xs)
end

/-- The empty array wrapped in `n` arrays: `[]`, `[[]]`, `[[[]]]`, ... -/
def nestedArray : ℕ → JSValue
  | 0 => .array []
  | n + 1 => .array [nestedArray n]

mutual
/-- The strings that occur in a value, at any depth of nesting of arrays, from
left to right. -/
def JSValue.strings : JSValue → List String
  | .array elems => stringsList elems
  | .string s => [s]
  | _ => []
/-- The strings that occur in the values of a list. -/
def stringsList : List JSValue → List String
  | [] => []
  | x :: xs => x.strings ++ stringsList xs
end

/-! ## A heap embedding: what a call may change

The tree embedding above cannot speak of an array that is changed in place. The
embedding below keeps arrays and objects in a heap and passes references to
them, so that a call could overwrite what its argument or the registry point
to; a fuel argument bounds the depth of the recursion, since a heap may hold an
array that contains itself. -/

/-- Run-time values: as `JSValue`, with a reference into the heap for arrays and
objects. -/
inductive HValue where
  | undefined
  | null
  | boolean (b : Bool)
  | number (x : JSNumber)
  | bigint (n : ℤ)
  | string (s : String)
  | symbol (id : ℕ)
  | function (id : ℕ)
  | ref (addr : ℕ)
  deriving DecidableEq

/-- What a reference points to: an array with its elements, or an object that is
not an array. -/
inductive HObject where
  | array (elems : List HValue)
  | object
  deriving DecidableEq

/-- One call of a console method, with run-time values as arguments. -/
structure HConsoleCall where
  level : ConsoleLevel
  args : List HValue
  deriving DecidableEq

/-- The state a call runs in: the heap, addressed by position, the properties of
the imported `commands` object, and the console calls made so far. -/
structure Store where
  heap : List HObject
  commands : List (String × HValue)
  console : List HConsoleCall
  deriving DecidableEq

/-- The `typeof` operator on run-time values. -/
def typeofH : HValue → String
  | .undefined => "undefined"
  | .null => "object"
  | .boolean _ => "boolean"
  | .number _ => "number"
  | .bigint _ => "bigint"
  | .string _ => "string"
  | .symbol _ => "symbol"
  | .function _ => "function"
  | .ref _ => "object"

/-- The test `option instanceof Array` on run-time values. -/
def instanceofArrayH (heap : List HObject) : HValue → Bool
  | .ref addr =>
    match heap[addr]? with
    | some (.array _) => true
    | _ => false
  | _ => false

/-- Truthiness of run-time values. -/
def toBooleanH : HValue → Bool
  | .undefined => false
  | .null => false
  | .boolean b => b
  | .number x => x.toBoolean
  | .bigint n => decide (n ≠ 0)
  | .string s => decide (s ≠ "")
  | .symbol _ => true
  | .function _ => true
  | .ref _ => true

/-- The properties inherited from `Object.prototype`, as run-time values:
`Object.prototype` itself is the object at address 0 of the heap. -/
def objectPrototypeH : List (String × HValue) :=
  [("constructor", .function 0), ("__defineGetter__", .function 1),
    ("__defineSetter__", .function 2), ("hasOwnProperty", .function 3),
    ("__lookupGetter__", .function 4), ("__lookupSetter__", .function 5),
    ("isPrototypeOf", .function 6), ("propertyIsEnumerable", .function 7),
    ("toString", .function 8), ("valueOf", .function 9), ("__proto__", .ref 0),
    ("toLocaleString", .function 10)]

/-- The property read `commands[key]` on run-time values: own properties first,
then those inherited from `Object.prototype`. -/
def getPropertyH (commands : List (String × HValue)) (key : String) : HValue :=
  match commands.lookup key with
  | some v => v
  | none => (objectPrototypeH.lookup key).getD .undefined

/-- The keys of `Object.keys(commands)`. -/
def objectKeysH (commands : List (String × HValue)) : List String :=
  commands.map Prod.fst

/-- Allocation of a new array or object: it is put at the end of the heap, and
its address is returned. -/
def allocate (o : HObject) (s : Store) : ℕ × Store :=
  (s.heap.length, { s with heap := s.heap ++ [o] })

/-- A call of a console method in a store. -/
def consoleCallH (level : ConsoleLevel) (args : List HValue) (s : Store) : Store :=
  { s with console := s.console ++ [⟨level, args⟩] }

/-- The loop of `Array.prototype.map` on the array at `addr`, over the indices
still to visit: each element is read from the heap when its turn comes and is
given to the callback; the values returned are collected in order. -/
def arrayMapLoop (callback : HValue → Store → Option (HValue × Store)) (addr : ℕ) :
    List ℕ → Store → Option (List HValue × Store)
  | [], s => some ([], s)
  | k :: ks, s =>
    match s.heap[addr]? with
    | some (.array elems) =>
      match elems[k]? with
      | some x =>
        match callback x s with
        | some (y, s1) =>
          match arrayMapLoop callback addr ks s1 with
          | some (ys, s2) => some (y :: ys, s2)
          | none => none
        | none => none
      | none => none
    | _ => none

/-- The function `createEditorButton(option)` on the heap, with `fuel` bounding
the depth of the recursion; `none` when the fuel runs out. The array returned
by `option.map` is a newly allocated one, and so are the two arrays made by
`Object.keys(commands)` and by `.slice(0, 20)`. -/
def createEditorButtonH : ℕ → HValue → Store → Option (HValue × Store)
  | 0, _, _ => none
  | fuel + 1, option, s =>
    if instanceofArrayH s.heap option then
      match option with
      | .ref addr =>
        match s.heap[addr]? with
        | some (.array elems) =>
          match arrayMapLoop (createEditorButtonH fuel) addr (List.range elems.length) s with
          | some (ys, s1) => some (.ref (allocate (.array ys) s1).1, (allocate (.array ys) s1).2)
          | none => none
        | _ => none
      | _ => none
    else if typeofH option = "object" then
      some (option, s)
    else if typeofH option ≠ "string" then
      some (.null, s)
    else
      match option with
      | .string key =>
        let button := getPropertyH s.commands key
        if !(toBooleanH button) then
          if key = "TableOfContents" then
            let s1 := consoleCallH .error [.string notFoundMessage] s
            let keys := allocate (.array ((objectKeysH s1.commands).map HValue.string)) s1
            let slice := allocate
              (.array (((objectKeysH s1.commands).take 20).map HValue.string)) keys.2
            let s2 := consoleCallH .log [.string "Available commands:", .ref slice.1] slice.2
            some (.null, s2)
          else
            some (.null, s)
        else
          some (button, s)
      | _ => some (.null, s)

mutual
/-- The run-time value `v` stands, in the heap, for the tree `t`: equal
primitive values, a reference to an object for an object (the address being its
identity), and a reference to an array whose elements stand for the elements of
`t` for an array. -/
def Reifies (heap : List HObject) : HValue → JSValue → Prop
  | v, .undefined => v = .undefined
  | v, .null => v = .null
  | v, .boolean b => v = .boolean b
  | v, .number x => v = .number x
  | v, .bigint n => v = .bigint n
  | v, .string s => v = .string s
  | v, .symbol id => v = .symbol id
  | v, .function id => v = .function id
  | v, .object id => v = .ref id ∧ heap[id]? = some .object
  | v, .array ts =>
    ∃ (addr : ℕ) (elems : List HValue),
      v = .ref addr ∧ heap[addr]? = some (.array elems) ∧ ReifiesList heap elems ts
/-- The run-time values `vs` stand one by one for the trees `ts`. -/
def ReifiesList (heap : List HObject) : List HValue → List JSValue → Prop
  | [], [] => True
  | v :: vs, t :: ts => Reifies heap v t ∧ ReifiesList heap vs ts
  | [], _ :: _ => False
  | _ :: _, [] => False
end

/-- The properties `ps`, with run-time values, stand for the properties `qs`:
the same keys in the same order, with values that stand for each other. -/
def ReifiesProperties (heap : List HObject) (ps : List (String × HValue))
    (qs : List (String × JSValue)) : Prop :=
  List.Forall₂ (fun p q => p.1 = q.1 ∧ Reifies heap p.2 q.2) ps qs

/-- The properties of `commands` in the store stand for those of the registry
`R`, and the properties inherited from `Object.prototype` stand for each other
in the two embeddings, which is to say that address 0 of the heap holds an
object, `Object.prototype`. -/
def ReifiesRegistry (heap : List HObject) (commands : List (String × HValue))
    (R : List (String × JSValue)) : Prop :=
  ReifiesProperties heap commands R ∧ ReifiesProperties heap objectPrototypeH objectPrototype

/-- The console calls `out` of the store stand for the calls `calls`: the same
levels in the same order, with arguments that stand for each other. -/
def ReifiesConsole (heap : List HObject) (out : List HConsoleCall)
    (calls : List ConsoleCall) : Prop :=
  List.Forall₂ (fun h c => h.level = c.level ∧ ReifiesList heap h.args c.args) out calls

mutual
/-- The depth of nesting of arrays in a value: 0 for a value that is not an
array. -/
def JSValue.depth : JSValue → ℕ
  | .array elems => depthList elems + 1
  | _ => 0
/-- The largest depth among the values of a list. -/
def depthList : List JSValue → ℕ
  | [] => 0
  | x :: xs => max x.depth (depthList xs)
end

/-- What a call on the heap has to deliver to agree with the tree embedding on
the option `t` and the registry `R`: it returns, the heap is only extended, the
properties of `commands` are the same, and the value returned and the console
calls made stand for those the tree embedding gives for `t` and `R`, and for an
array the value returned is a reference beyond the heap the call started in. -/
def Resolves (R : List (String × JSValue)) (t : JSValue) (s : Store)
    (res : Option (HValue × Store)) : Prop :=
  ∃ (r : HValue) (s' : Store) (out : List HConsoleCall),
    res = some (r, s')
      ∧ s.heap <+: s'.heap
      ∧ s'.commands = s.commands
      ∧ s'.console = s.console ++ out
      ∧ Reifies s'.heap r (createEditorButton t ⟨R, []⟩).1
      ∧ ReifiesConsole s'.heap out (createEditorButton t ⟨R, []⟩).2.console
      ∧ (instanceofArray t = true → ∃ addr : ℕ, r = .ref addr ∧ s.heap.length ≤ addr)

mutual
/-- The number of occurrences of the string `"TableOfContents"` in a value, at
any depth of nesting of arrays. -/
def countTableOfContents : JSValue → ℕ
  | .array elems => countTableOfContentsList elems
  | .string s => if s = "TableOfContents" then 1 else 0
  | _ => 0
/-- The number of occurrences of the string `"TableOfContents"` in the values of
a list. -/
def countTableOfContentsList : List JSValue → ℕ
  | [] => 0
  | x :: xs => countTableOfContents x + countTableOfContentsList xs
end

/-! ## Unfolding lemmas and an induction principle for values -/

theorem createEditorButton_array (elems : List JSValue) (w : World) :
    createEditorButton (.array elems) w
      = (.array (mapCreateEditorButton elems w).1, (mapCreateEditorButton elems w).2) := by
  simp [createEditorButton]

theorem createEditorButton_of_not_array (option : JSValue) (w : World)
    (h : instanceofArray option = false) :
    createEditorButton option w = createEditorButtonNonArray option w := by
  cases option <;> simp [createEditorButton, instanceofArray] at h ⊢

theorem mapCreateEditorButton_nil (w : World) :
    mapCreateEditorButton [] w = ([], w) := by
  simp [mapCreateEditorButton]

theorem mapCreateEditorButton_cons (x : JSValue) (xs : List JSValue) (w : World) :
    mapCreateEditorButton (x :: xs) w
      = ((createEditorButton x w).1 :: (mapCreateEditorButton xs (createEditorButton x w).2).1,
          (mapCreateEditorButton xs (createEditorButton x w).2).2) := by
  simp [mapCreateEditorButton]

mutual
/-- Induction over values: a property that holds for every value that is not an
array, and for an array as soon as it holds for its elements, holds for all. -/
theorem JSValue.induct {P : JSValue → Prop}
    (harr : ∀ elems : List JSValue, (∀ x ∈ elems, P x) → P (.array elems))
    (hother : ∀ v : JSValue, instanceofArray v = false → P v) : ∀ v : JSValue, P v
  | .array elems => harr elems (JSValue.induct_list harr hother elems)
  | .undefined => hother _ rfl
  | .null => hother _ rfl
  | .boolean _ => hother _ rfl
  | .number _ => hother _ rfl
  | .bigint _ => hother _ rfl
  | .string _ => hother _ rfl
  | .symbol _ => hother _ rfl
  | .function _ => hother _ rfl
  | .object _ => hother _ rfl
/-- The list part of `JSValue.induct`. -/
theorem JSValue.induct_list {P : JSValue → Prop}
    (harr : ∀ elems : List JSValue, (∀ x ∈ elems, P x) → P (.array elems))
    (hother : ∀ v : JSValue, instanceofArray v = false → P v) :
    ∀ xs : List JSValue, ∀ x ∈ xs, P x
  | [] => fun _ hx => absurd hx (List.not_mem_nil _)
  | y :: ys => fun x hx => by
    rcases List.mem_cons.mp hx with h | h
    · exact h ▸ JSValue.induct harr hother y
    · exact JSValue.induct_list harr hother ys x h
end

/-! ## The frame of a call: the registry is only read, the console only extended -/

theorem createEditorButtonNonArray_frame (option : JSValue) (R : List (String × JSValue))
    (c : List ConsoleCall) :
    createEditorButtonNonArray option ⟨R, c⟩
      = ((createEditorButtonNonArray option ⟨R, []⟩).1,
          ⟨R, c ++ (createEditorButtonNonArray option ⟨R, []⟩).2.console⟩) := by
  unfold createEditorButtonNonArray
  split
  · simp
  · split
    · simp
    · split
      · simp only []
        split
        · split
          · simp [consoleError, consoleLog]
          · simp
        · simp
      · simp

theorem mapCreateEditorButton_frame_of (xs : List JSValue)
    (ih : ∀ x ∈ xs, ∀ (R : List (String × JSValue)) (c : List ConsoleCall),
      createEditorButton x ⟨R, c⟩
        = ((createEditorButton x ⟨R, []⟩).1,
            ⟨R, c ++ (createEditorButton x ⟨R, []⟩).2.console⟩))
    (R : List (String × JSValue)) (c : List ConsoleCall) :
    mapCreateEditorButton xs ⟨R, c⟩
      = ((mapCreateEditorButton xs ⟨R, []⟩).1,
          ⟨R, c ++ (mapCreateEditorButton xs ⟨R, []⟩).2.console⟩) := by
  induction xs generalizing c with
  | nil => simp [mapCreateEditorButton_nil]
  | cons x xs ihx =>
    have hx := ih x (List.mem_cons_self _ _)
    have hxs := ihx (fun y hy => ih y (List.mem_cons_of_mem _ hy))
    rw [mapCreateEditorButton_cons, mapCreateEditorButton_cons, hx R c,
      hxs (c ++ (createEditorButton x ⟨R, []⟩).2.console)]
    rw [hx R [], hxs ([] ++ (createEditorButton x ⟨R, []⟩).2.console)]
    simp [List.append_assoc]

/-- A call in the world `⟨R, c⟩` returns what it returns with an empty console,
leaves the registry `R` as it is, and appends to `c` the calls it makes with an
empty console. -/
theorem createEditorButton_frame (option : JSValue) :
    ∀ (R : List (String × JSValue)) (c : List ConsoleCall),
      createEditorButton option ⟨R, c⟩
        = ((createEditorButton option ⟨R, []⟩).1,
            ⟨R, c ++ (createEditorButton option ⟨R, []⟩).2.console⟩) := by
  induction option using JSValue.induct with
  | harr elems ih =>
    intro R c
    rw [createEditorButton_array, createEditorButton_array,
      mapCreateEditorButton_frame_of elems ih R c]
  | hother v hv =>
    intro R c
    rw [createEditorButton_of_not_array v _ hv, createEditorButton_of_not_array v _ hv]
    exact createEditorButtonNonArray_frame v R c

theorem mapCreateEditorButton_frame (xs : List JSValue) (R : List (String × JSValue))
    (c : List ConsoleCall) :
    mapCreateEditorButton xs ⟨R, c⟩
      = ((mapCreateEditorButton xs ⟨R, []⟩).1,
          ⟨R, c ++ (mapCreateEditorButton xs ⟨R, []⟩).2.console⟩) :=
  mapCreateEditorButton_frame_of xs (fun x _ => createEditorButton_frame x) R c

/-- The value returned does not depend on the console. -/
theorem createEditorButton_fst (option : JSValue) (w : World) :
    (createEditorButton option w).1 = (createEditorButton option ⟨w.commands, []⟩).1 := by
  cases w with
  | mk R c => rw [createEditorButton_frame option R c]

/-- The registry after a call is the registry before it. -/
theorem createEditorButton_commands (option : JSValue) (w : World) :
    (createEditorButton option w).2.commands = w.commands := by
  cases w with
  | mk R c => rw [createEditorButton_frame option R c]

/-- The values of `option.map(createEditorButton)` are those of the single
calls, each made in the world the map starts in. -/
theorem mapCreateEditorButton_fst (xs : List JSValue) (w : World) :
    (mapCreateEditorButton xs w).1 = xs.map (fun x => (createEditorButton x w).1) := by
  induction xs generalizing w with
  | nil => simp [mapCreateEditorButton_nil]
  | cons x xs ih =>
    rw [mapCreateEditorButton_cons]
    simp only [List.map_cons]
    rw [ih (createEditorButton x w).2]
    congr 1
    apply List.map_congr_left
    intro y _
    rw [createEditorButton_fst y (createEditorButton x w).2, createEditorButton_commands,
      ← createEditorButton_fst y w]


/-! ## The string case and the registry -/

/-- What the function does with a string, with the tests of lines 7 and 10
resolved. -/
theorem createEditorButton_string (key : String) (w : World) :
    createEditorButton (.string key) w
      = if toBoolean (getProperty w.commands key) = false then
          if key = "TableOfContents" then
            (.null, consoleLog
              [.string "Available commands:",
                .array (((objectKeys w.commands).take 20).map JSValue.string)]
              (consoleError [.string notFoundMessage] w))
          else (.null, w)
        else (getProperty w.commands key, w) := by
  simp [createEditorButton, createEditorButtonNonArray, typeof, consoleError]

/-- The value returned for a string: the value read from the registry when it
is truthy, and `null` otherwise. -/
theorem createEditorButton_string_fst (key : String) (w : World) :
    (createEditorButton (.string key) w).1
      = if toBoolean (getProperty w.commands key) = true then getProperty w.commands key
        else .null := by
  rw [createEditorButton_string]
  cases hb : toBoolean (getProperty w.commands key)
  · by_cases hk : key = "TableOfContents" <;> simp [hk]
  · simp

/-- A key that is not among the keys of a list of properties is not found in
it. -/
theorem lookup_eq_none_of_not_mem {α : Type} (R : List (String × α)) (key : String)
    (h : key ∉ R.map Prod.fst) : R.lookup key = none := by
  induction R with
  | nil => rfl
  | cons p R ih =>
    obtain ⟨a, v⟩ := p
    simp only [List.map_cons, List.mem_cons, not_or] at h
    have hne : (key == a) = false := by simpa using h.1
    simpa [List.lookup, hne] using ih h.2

/-- A key that is not found in a list of properties is not among its keys. -/
theorem not_mem_of_lookup_eq_none {α : Type} (R : List (String × α)) (key : String)
    (h : R.lookup key = none) : key ∉ R.map Prod.fst := by
  induction R with
  | nil => simp
  | cons p R ih =>
    obtain ⟨a, v⟩ := p
    cases hk : (key == a)
    · simp only [List.lookup, hk] at h
      have hne : key ≠ a := by simpa using hk
      simp only [List.map_cons, List.mem_cons, not_or]
      exact ⟨hne, ih h⟩
    · simp [List.lookup, hk] at h

/-- A value found in a list of properties is the value of a property of the
list with that key. -/
theorem mem_of_lookup_eq_some {α : Type} (R : List (String × α)) (key : String) (v : α)
    (h : R.lookup key = some v) : (key, v) ∈ R := by
  induction R with
  | nil => simp [List.lookup] at h
  | cons p R ih =>
    obtain ⟨a, u⟩ := p
    cases hk : (key == a)
    · simp only [List.lookup, hk] at h
      exact List.mem_cons_of_mem _ (ih h)
    · simp only [List.lookup, hk, Option.some.injEq] at h
      have hka : key = a := by simpa using hk
      rw [hka, h]
      exact List.mem_cons_self _ _

/-- The read of a key that `commands` holds itself. -/
theorem getProperty_of_lookup_some (R : List (String × JSValue)) (key : String) (v : JSValue)
    (h : R.lookup key = some v) : getProperty R key = v := by
  simp [getProperty, h]

/-- The read of a key that `commands` does not hold itself: what it inherits. -/
theorem getProperty_of_lookup_none (R : List (String × JSValue)) (key : String)
    (h : R.lookup key = none) :
    getProperty R key = (objectPrototype.lookup key).getD .undefined := by
  simp [getProperty, h]

/-- A key that is neither among `Object.keys(commands)` nor inherited from
`Object.prototype` reads as `undefined`. -/
theorem getProperty_of_not_mem (R : List (String × JSValue)) (key : String)
    (h : key ∉ objectKeys R) (hp : key ∉ objectKeys objectPrototype) :
    getProperty R key = .undefined := by
  rw [getProperty_of_lookup_none R key (lookup_eq_none_of_not_mem R key h),
    lookup_eq_none_of_not_mem objectPrototype key hp]
  rfl

/-- The key `"TableOfContents"` is not inherited: when it is not among
`Object.keys(commands)` it reads as `undefined`. -/
theorem getProperty_tableOfContents (R : List (String × JSValue))
    (h : "TableOfContents" ∉ objectKeys R) :
    getProperty R "TableOfContents" = .undefined :=
  getProperty_of_not_mem R _ h (by decide)

/-- A truthy read comes from a key of the registry or from an inherited one. -/
theorem mem_objectKeys_of_toBoolean (R : List (String × JSValue)) (key : String)
    (h : toBoolean (getProperty R key) = true) :
    key ∈ objectKeys R ∨ key ∈ objectKeys objectPrototype := by
  by_contra hk
  rw [not_or] at hk
  rw [getProperty_of_not_mem R key hk.1 hk.2] at h
  simp [toBoolean] at h

/-- The inherited values are functions, but for the object `Object.prototype`. -/
theorem objectPrototype_values (p : String × JSValue) (hp : p ∈ objectPrototype) :
    (∃ id : ℕ, p.2 = .function id) ∨ p.2 = .object 0 := by
  simp only [objectPrototype, List.mem_cons, List.mem_singleton, List.not_mem_nil,
    or_false] at hp
  rcases hp with h | h | h | h | h | h | h | h | h | h | h | h <;> subst h <;> simp

/-- A read of the registry gives a value that `commands` holds itself, or a
value it inherits under a key it does not hold, or `undefined`. -/
theorem getProperty_cases (R : List (String × JSValue)) (key : String) :
    (∃ p ∈ R, p.1 = key ∧ p.2 = getProperty R key)
      ∨ (key ∉ objectKeys R ∧ ∃ p ∈ objectPrototype, p.1 = key ∧ p.2 = getProperty R key)
      ∨ (key ∉ objectKeys R ∧ key ∉ objectKeys objectPrototype
          ∧ getProperty R key = .undefined) := by
  cases h : R.lookup key with
  | some v =>
    exact Or.inl ⟨(key, v), mem_of_lookup_eq_some R key v h, rfl,
      (getProperty_of_lookup_some R key v h).symm⟩
  | none =>
    have hk : key ∉ objectKeys R := not_mem_of_lookup_eq_none R key h
    have hg := getProperty_of_lookup_none R key h
    cases hi : objectPrototype.lookup key with
    | some v =>
      rw [hi] at hg
      exact Or.inr (Or.inl ⟨hk, (key, v), mem_of_lookup_eq_some _ key v hi, rfl, hg.symm⟩)
    | none =>
      rw [hi] at hg
      exact Or.inr (Or.inr ⟨hk, not_mem_of_lookup_eq_none _ key hi, hg⟩)

/-! ## Arrays are resolved element by element -/

/-- C1: for every registry and every array `S`, `createEditorButton(S)` is an
array of the same length as `S` whose `i`-th element is `createEditorButton(S[i])`
for every index `i`; elements that resolve to `null` keep their position: with
the registry `{Bold: d}`, `["Bold", "Missing"]` resolves to `[d, null]`. -/
theorem createEditorButton_array_elementwise (w : World) (S : List JSValue) :
    (∃ T : List JSValue,
      (createEditorButton (.array S) w).1 = .array T
        ∧ T = S.map (fun s => (createEditorButton s w).1)
        ∧ T.length = S.length
        ∧ ∀ i : ℕ, T[i]? = (S[i]?).map (fun s => (createEditorButton s w).1))
    ∧ ∀ (d : ℕ) (c : List ConsoleCall),
        (createEditorButton (.array [.string "Bold", .string "Missing"])
          ⟨[("Bold", .object d)], c⟩).1 = .array [.object d, .null] := by
  refine ⟨⟨S.map (fun s => (createEditorButton s w).1), ?_, rfl, by simp, ?_⟩, ?_⟩
  · rw [createEditorButton_array, mapCreateEditorButton_fst]
  · intro i
    simp [List.getElem?_map]
  · intro d c
    rfl

/-! ## Strings are looked up in the registry -/

/-- C2, as stated, fails: with the registry `{Bold: 0}` the key `"Bold"` is
present, its value is the number `0`, and `createEditorButton("Bold")` returns
`null`. -/
theorem createEditorButton_present_falsy_returns_null :
    "Bold" ∈ objectKeys [("Bold", JSValue.number (.finite 0))]
      ∧ getProperty [("Bold", JSValue.number (.finite 0))] "Bold" = .number (.finite 0)
      ∧ (createEditorButton (.string "Bold") ⟨[("Bold", .number (.finite 0))], []⟩).1 = .null
      ∧ (createEditorButton (.string "Bold") ⟨[("Bold", .number (.finite 0))], []⟩).1
          ≠ getProperty [("Bold", JSValue.number (.finite 0))] "Bold" := by
  refine ⟨by simp [objectKeys], rfl, rfl, ?_⟩
  intro h
  have h2 : (JSValue.null : JSValue) = .number (.finite 0) := h
  cases h2

/-- C2, amended: for every registry and every key whose value in the registry is
truthy, `createEditorButton(key)` returns exactly that value; the same holds
for a truthy value that the registry inherits, so that the key is one of the
keys of the registry or an inherited one. -/
theorem createEditorButton_string_truthy (w : World) (key : String)
    (h : toBoolean (getProperty w.commands key) = true) :
    (createEditorButton (.string key) w).1 = getProperty w.commands key
      ∧ (key ∈ objectKeys w.commands ∨ key ∈ objectKeys objectPrototype) := by
  refine ⟨?_, mem_objectKeys_of_toBoolean _ _ h⟩
  rw [createEditorButton_string]
  simp [h]

theorem createEditorButton_string_truthy_witness :
    toBoolean (getProperty (World.mk [("Bold", .object 1)] []).commands "Bold") = true
      ∧ (createEditorButton (.string "Bold") ⟨[("Bold", .object 1)], []⟩).1
          = getProperty (World.mk [("Bold", .object 1)] []).commands "Bold"
      ∧ ("Bold" ∈ objectKeys (World.mk [("Bold", .object 1)] []).commands
          ∨ "Bold" ∈ objectKeys objectPrototype) :=
  ⟨rfl, createEditorButton_string_truthy ⟨[("Bold", .object 1)], []⟩ "Bold" rfl⟩

/-- C3, as stated, fails: with the registry `{Bold: d}` the key `"constructor"`
is not among the keys, and `createEditorButton("constructor")` returns the
function that the registry inherits under that key, not `null`. -/
theorem createEditorButton_inherited_returns_function :
    "constructor" ∉ objectKeys [("Bold", JSValue.object 1)]
      ∧ (createEditorButton (.string "constructor") ⟨[("Bold", .object 1)], []⟩).1
          = .function 0
      ∧ (createEditorButton (.string "constructor") ⟨[("Bold", .object 1)], []⟩).1
          ≠ .null := by
  refine ⟨by decide, rfl, ?_⟩
  intro h
  have h2 : (JSValue.function 0 : JSValue) = .null := h
  cases h2

/-- C3, amended: for every registry and every key that is neither among its keys
nor the name of a property inherited from `Object.prototype`,
`createEditorButton(key)` returns `null`, whatever else the key is, the key
`"TableOfContents"` included, which is not inherited. -/
theorem createEditorButton_string_absent (w : World) (key : String)
    (h : key ∉ objectKeys w.commands) (hp : key ∉ objectKeys objectPrototype) :
    (createEditorButton (.string key) w).1 = .null
      ∧ "TableOfContents" ∉ objectKeys objectPrototype := by
  refine ⟨?_, by decide⟩
  rw [createEditorButton_string_fst, getProperty_of_not_mem _ _ h hp]
  simp [toBoolean]

theorem createEditorButton_string_absent_witness :
    "TableOfContents" ∉ objectKeys (World.mk [("Bold", .object 1)] []).commands
      ∧ "TableOfContents" ∉ objectKeys objectPrototype
      ∧ (createEditorButton (.string "TableOfContents") ⟨[("Bold", .object 1)], []⟩).1
          = .null :=
  ⟨by decide, by decide,
    (createEditorButton_string_absent ⟨[("Bold", .object 1)], []⟩ "TableOfContents"
      (by decide) (by decide)).1⟩

/-! ## Values that are not strings -/

/-- C4: for every registry and every value whose `typeof` is `'object'` and that
is not an array, `createEditorButton` returns the value itself; the registry
plays no part and the value is not inspected. -/
theorem createEditorButton_object_passthrough (w : World) (v : JSValue)
    (hobj : typeof v = "object") (harr : instanceofArray v = false) :
    (createEditorButton v w).1 = v := by
  rw [createEditorButton_of_not_array v w harr]
  simp [createEditorButtonNonArray, hobj]

theorem createEditorButton_object_passthrough_witness :
    typeof (.object 7) = "object" ∧ instanceofArray (.object 7) = false
      ∧ (createEditorButton (.object 7) ⟨[("Bold", .object 1)], []⟩).1 = .object 7 :=
  ⟨rfl, rfl, createEditorButton_object_passthrough ⟨[("Bold", .object 1)], []⟩ (.object 7)
    rfl rfl⟩

/-- C5: for every registry and every value that is not a string and either has a
`typeof` other than `'object'` (a number, a boolean, `undefined`, ...) or is
`null`, `createEditorButton` returns `null`. -/
theorem createEditorButton_other_null (w : World) (v : JSValue)
    (hstr : typeof v ≠ "string") (hobj : typeof v ≠ "object" ∨ v = .null) :
    (createEditorButton v w).1 = .null := by
  rcases hobj with hobj | rfl
  · have harr : instanceofArray v = false := by
      cases v <;> simp [typeof, instanceofArray] at hobj ⊢
    rw [createEditorButton_of_not_array v w harr]
    simp [createEditorButtonNonArray, hobj, hstr]
  · rfl

theorem createEditorButton_other_null_witness :
    typeof (.number (.finite 42)) ≠ "string"
      ∧ (typeof (.number (.finite 42)) ≠ "object" ∨ JSValue.number (.finite 42) = .null)
      ∧ (createEditorButton (.number (.finite 42)) ⟨[("Bold", .object 1)], []⟩).1 = .null :=
  ⟨by decide, Or.inl (by decide),
    createEditorButton_other_null ⟨[("Bold", .object 1)], []⟩ (.number (.finite 42))
      (by decide) (Or.inl (by decide))⟩


/-! ## Console output -/

/-- C6: for every registry without the key `"TableOfContents"`,
`createEditorButton("TableOfContents")` makes exactly two console calls, first
one `console.error` and then one `console.log`, and the `console.log` call lists
the first `min(20, n)` of the `n` keys of the registry, in their order: never
more than 20 keys, and none for an empty registry. -/
theorem createEditorButton_tableOfContents_absent (w : World)
    (h : "TableOfContents" ∉ objectKeys w.commands) :
    ∃ listed : List String,
      (createEditorButton (.string "TableOfContents") w).2.console
          = w.console ++
            [⟨.error, [.string notFoundMessage]⟩,
              ⟨.log, [.string "Available commands:", .array (listed.map JSValue.string)]⟩]
        ∧ listed = (objectKeys w.commands).take (min 20 (objectKeys w.commands).length)
        ∧ listed.length = min 20 (objectKeys w.commands).length
        ∧ listed.length ≤ 20
        ∧ listed <+: objectKeys w.commands
        ∧ (w.commands = [] → listed = []) := by
  refine ⟨(objectKeys w.commands).take 20, ?_, ?_, ?_, ?_, ?_, ?_⟩
  · rw [createEditorButton_string, getProperty_tableOfContents _ h]
    simp [toBoolean, consoleLog, consoleError]
  · rcases Nat.le_total 20 (objectKeys w.commands).length with hle | hle
    · rw [Nat.min_eq_left hle]
    · rw [Nat.min_eq_right hle, List.take_length, List.take_of_length_le hle]
  · simp
  · simp
  · exact List.take_prefix _ _
  · intro he
    simp [he, objectKeys]

theorem createEditorButton_tableOfContents_absent_witness :
    "TableOfContents" ∉ objectKeys (World.mk [("Bold", .object 1)] []).commands
      ∧ ∃ listed : List String,
        (createEditorButton (.string "TableOfContents")
            ⟨[("Bold", .object 1)], []⟩).2.console
          = (World.mk [("Bold", .object 1)] []).console ++
            [⟨.error, [.string notFoundMessage]⟩,
              ⟨.log, [.string "Available commands:", .array (listed.map JSValue.string)]⟩]
        ∧ listed = (objectKeys (World.mk [("Bold", .object 1)] []).commands).take
            (min 20 (objectKeys (World.mk [("Bold", .object 1)] []).commands).length)
        ∧ listed.length = min 20 (objectKeys (World.mk [("Bold", .object 1)] []).commands).length
        ∧ listed.length ≤ 20
        ∧ listed <+: objectKeys (World.mk [("Bold", .object 1)] []).commands
        ∧ ((World.mk [("Bold", .object 1)] []).commands = [] → listed = []) :=
  ⟨by simp [objectKeys],
    createEditorButton_tableOfContents_absent ⟨[("Bold", .object 1)], []⟩
      (by simp [objectKeys])⟩

/-- C7, as stated, fails: with the registry `{TableOfContents: null}` the key
`"TableOfContents"` is present, and `createEditorButton("TableOfContents")`
still makes the two console calls. -/
theorem createEditorButton_tableOfContents_present_falsy_logs :
    "TableOfContents" ∈ objectKeys [("TableOfContents", JSValue.null)]
      ∧ (createEditorButton (.string "TableOfContents")
          ⟨[("TableOfContents", .null)], []⟩).2.console
        = [⟨.error, [.string notFoundMessage]⟩,
            ⟨.log, [.string "Available commands:", .array [.string "TableOfContents"]]⟩]
      ∧ (createEditorButton (.string "TableOfContents")
          ⟨[("TableOfContents", .null)], []⟩).2.console ≠ [] := by
  refine ⟨by simp [objectKeys], rfl, ?_⟩
  intro h
  have h2 := congrArg List.length h
  have h3 : (createEditorButton (.string "TableOfContents")
      ⟨[("TableOfContents", .null)], []⟩).2.console.length = 2 := rfl
  rw [h3] at h2
  exact absurd h2 (by decide)

/-- C7, amended: `createEditorButton` makes no console call, and leaves the
world as it is, for every option that is not an array, except the string
`"TableOfContents"` when its lookup in the registry is falsy (the key is absent,
or present with a falsy value): nothing is written for a string whose lookup is
truthy (`"TableOfContents"` included), for a string other than
`"TableOfContents"`, for an object and for any other value that is not a
string. -/
theorem createEditorButton_silent (w : World) (option : JSValue)
    (harr : instanceofArray option = false)
    (h : ¬ (option = .string "TableOfContents"
      ∧ toBoolean (getProperty w.commands "TableOfContents") = false)) :
    (createEditorButton option w).2 = w := by
  rw [createEditorButton_of_not_array option w harr]
  unfold createEditorButtonNonArray
  split
  · rfl
  · split
    · rfl
    · split
      · rename_i key
        simp only []
        split
        · rename_i hb
          split
          · rename_i hk
            subst hk
            exact absurd ⟨rfl, by simpa using hb⟩ h
          · rfl
        · rfl
      · rfl

theorem createEditorButton_silent_witness :
    instanceofArray (.string "TableOfContents") = false
      ∧ (createEditorButton (.string "TableOfContents")
          ⟨[("TableOfContents", .object 3)], []⟩).2 = ⟨[("TableOfContents", .object 3)], []⟩ :=
  ⟨rfl, createEditorButton_silent ⟨[("TableOfContents", .object 3)], []⟩
    (.string "TableOfContents") rfl (fun hh => by
      have h2 : toBoolean (getProperty [("TableOfContents", JSValue.object 3)]
        "TableOfContents") = false := hh.2
      have h3 : toBoolean (getProperty [("TableOfContents", JSValue.object 3)]
        "TableOfContents") = true := rfl
      rw [h3] at h2
      exact absurd h2 (by decide))⟩


/-! ## Totality, up to the size of the call stack -/

theorem createEditorButtonStack_zero (option : JSValue) (w : World) :
    createEditorButtonStack 0 option w = .error .rangeError := by
  simp [createEditorButtonStack]

theorem createEditorButtonStack_array (limit : ℕ) (elems : List JSValue) (w : World) :
    createEditorButtonStack (limit + 1) (.array elems) w
      = match mapWithStack (createEditorButtonStack limit) elems w with
        | .ok (ys, w') => .ok (.array ys, w')
        | .error e => .error e := by
  simp [createEditorButtonStack]

theorem createEditorButtonStack_of_not_array (limit : ℕ) (option : JSValue) (w : World)
    (h : instanceofArray option = false) :
    createEditorButtonStack (limit + 1) option w
      = .ok (createEditorButtonNonArray option w) := by
  cases option <;> simp [createEditorButtonStack, instanceofArray] at h ⊢

theorem frames_le_framesList {x : JSValue} {xs : List JSValue} (h : x ∈ xs) :
    x.frames ≤ framesList xs := by
  induction xs with
  | nil => cases h
  | cons y ys ih =>
    simp only [framesList]
    rcases List.mem_cons.mp h with rfl | h
    · exact le_max_left _ _
    · exact le_trans (ih h) (le_max_right _ _)

theorem exists_frames_gt {xs : List JSValue} {n : ℕ} (h : n < framesList xs) :
    ∃ x ∈ xs, n < x.frames := by
  induction xs with
  | nil => simp [framesList] at h
  | cons y ys ih =>
    simp only [framesList, lt_max_iff] at h
    rcases h with h | h
    · exact ⟨y, List.mem_cons_self _ _, h⟩
    · obtain ⟨x, hx, hn⟩ := ih h
      exact ⟨x, List.mem_cons_of_mem _ hx, hn⟩

/-- A map whose callback returns what `createEditorButton` returns, on every
element, returns what `option.map(createEditorButton)` returns. -/
theorem mapWithStack_ok (callback : JSValue → World → Except JSError (JSValue × World))
    (xs : List JSValue)
    (h : ∀ x ∈ xs, ∀ w : World, callback x w = .ok (createEditorButton x w)) :
    ∀ w : World, mapWithStack callback xs w = .ok (mapCreateEditorButton xs w) := by
  induction xs with
  | nil =>
    intro w
    simp [mapWithStack, mapCreateEditorButton_nil]
  | cons x xs ih =>
    intro w
    simp only [mapWithStack, h x (List.mem_cons_self _ _) w,
      ih (fun y hy => h y (List.mem_cons_of_mem _ hy)), mapCreateEditorButton_cons]

/-- A map whose callback throws on one of the elements throws. -/
theorem mapWithStack_error (callback : JSValue → World → Except JSError (JSValue × World))
    (xs : List JSValue)
    (h : ∃ x ∈ xs, ∀ w : World, callback x w = .error .rangeError) :
    ∀ w : World, mapWithStack callback xs w = .error .rangeError := by
  induction xs with
  | nil =>
    obtain ⟨x, hx, _⟩ := h
    cases hx
  | cons y ys ih =>
    intro w
    obtain ⟨x, hx, hcb⟩ := h
    simp only [mapWithStack]
    cases hy : callback y w with
    | error e =>
      cases e
      rfl
    | ok p =>
      obtain ⟨r, w1⟩ := p
      rcases List.mem_cons.mp hx with rfl | hx
      · rw [hcb w] at hy
        cases hy
      · simp only [ih ⟨x, hx, hcb⟩ w1]

/-- On a stack with room for the activations the option needs, the call returns
what `createEditorButton` returns. -/
theorem createEditorButtonStack_ok :
    ∀ (limit : ℕ) (option : JSValue), option.frames ≤ limit → ∀ w : World,
      createEditorButtonStack limit option w = .ok (createEditorButton option w) := by
  intro limit
  induction limit with
  | zero =>
    intro option h
    cases option <;> simp [JSValue.frames] at h
  | succ limit ih =>
    intro option h w
    cases harr : instanceofArray option
    · rw [createEditorButtonStack_of_not_array limit option w harr,
        createEditorButton_of_not_array option w harr]
    · cases option with
      | array elems =>
        simp only [JSValue.frames, Nat.add_le_add_iff_right] at h
        rw [createEditorButtonStack_array,
          mapWithStack_ok (createEditorButtonStack limit) elems
            (fun x hx w1 => ih x (le_trans (frames_le_framesList hx) h) w1) w,
          createEditorButton_array]
      | _ => simp [instanceofArray] at harr

/-- On a stack without room for the activations the option needs, the call
raises a `RangeError`. -/
theorem createEditorButtonStack_error :
    ∀ (limit : ℕ) (option : JSValue), limit < option.frames → ∀ w : World,
      createEditorButtonStack limit option w = .error .rangeError := by
  intro limit
  induction limit with
  | zero =>
    intro option _ w
    exact createEditorButtonStack_zero option w
  | succ limit ih =>
    intro option h w
    cases option with
    | array elems =>
      simp only [JSValue.frames, Nat.add_lt_add_iff_right] at h
      obtain ⟨x, hx, hn⟩ := exists_frames_gt h
      rw [createEditorButtonStack_array,
        mapWithStack_error (createEditorButtonStack limit) elems ⟨x, hx, ih x hn⟩ w]
    | _ => simp [JSValue.frames] at h

theorem frames_nestedArray (n : ℕ) : (nestedArray n).frames = n + 1 := by
  induction n with
  | zero => simp [nestedArray, JSValue.frames, framesList]
  | succ n ih => simp [nestedArray, JSValue.frames, framesList, ih]

/-- C8, as stated, fails. On a call stack with room for three activations the
array `[[[[]]]]`, of finite depth, ends in a `RangeError`, and no size of the
stack is enough for every array. Besides, with the registry `{Bold: d}` the
result for `"valueOf"`, which is not among the keys, is an inherited function:
not `null`, not an array, not the option and not a value of the registry. -/
theorem createEditorButton_deep_array_throws :
    createEditorButtonStack 3 (nestedArray 3) ⟨[], []⟩ = .error .rangeError
      ∧ nestedArray 3 = .array [.array [.array [.array []]]]
      ∧ (¬ ∃ limit : ℕ, ∀ (option : JSValue) (w : World),
          ∃ p : JSValue × World, createEditorButtonStack limit option w = .ok p)
      ∧ "valueOf" ∉ objectKeys [("Bold", JSValue.object 1)]
      ∧ (createEditorButton (.string "valueOf") ⟨[("Bold", .object 1)], []⟩).1 = .function 9 := by
  refine ⟨rfl, rfl, ?_, by decide, rfl⟩
  rintro ⟨limit, h⟩
  obtain ⟨p, hp⟩ := h (nestedArray limit) ⟨[], []⟩
  rw [createEditorButtonStack_error limit (nestedArray limit)
    (by rw [frames_nestedArray]; exact Nat.lt_succ_self _)] at hp
  cases hp

/-- C8, amended: `createEditorButton` raises no error of its own and returns
whenever the call stack has room for the nesting of the option: for every
registry and every option that needs no more activations than the stack has
room for, the call returns a value and a world, those of the embedding without
a stack, and the value is `null`, or an array of the length of the option, an
array, or the option itself, its `typeof` being `'object'`, or the truthy value
read for the option, a string: a value the registry holds under that key, or a
value inherited from `Object.prototype` under a key the registry does not
hold. -/
theorem createEditorButton_total_within_stack (limit : ℕ) (w : World) (option : JSValue)
    (h : option.frames ≤ limit) :
    ∃ (r : JSValue) (w' : World),
      createEditorButtonStack limit option w = .ok (r, w')
        ∧ createEditorButton option w = (r, w')
        ∧ (r = .null
          ∨ (∃ S T : List JSValue, option = .array S ∧ r = .array T ∧ T.length = S.length)
          ∨ (r = option ∧ typeof option = "object" ∧ instanceofArray option = false)
          ∨ (∃ key : String, option = .string key ∧ r = getProperty w.commands key
              ∧ toBoolean r = true
              ∧ ((∃ p ∈ w.commands, p.1 = key ∧ p.2 = r)
                ∨ (key ∉ objectKeys w.commands
                  ∧ ∃ p ∈ objectPrototype, p.1 = key ∧ p.2 = r)))) := by
  refine ⟨(createEditorButton option w).1, (createEditorButton option w).2,
    createEditorButtonStack_ok limit option h w, rfl, ?_⟩
  cases option with
  | array elems =>
    refine Or.inr (Or.inl ⟨elems, elems.map (fun x => (createEditorButton x w).1), rfl, ?_,
      by simp⟩)
    rw [createEditorButton_array, mapCreateEditorButton_fst]
  | string key =>
    by_cases hb : toBoolean (getProperty w.commands key) = true
    · have hv : (createEditorButton (.string key) w).1 = getProperty w.commands key := by
        rw [createEditorButton_string_fst, if_pos hb]
      refine Or.inr (Or.inr (Or.inr ⟨key, rfl, hv, by rw [hv]; exact hb, ?_⟩))
      rw [hv]
      rcases getProperty_cases w.commands key with h1 | h2 | h3
      · exact Or.inl h1
      · exact Or.inr h2
      · rw [h3.2.2] at hb
        simp [toBoolean] at hb
    · left
      rw [createEditorButton_string_fst]
      simp [hb]
  | null => exact Or.inl rfl
  | object id => exact Or.inr (Or.inr (Or.inl ⟨rfl, rfl, rfl⟩))
  | undefined => exact Or.inl rfl
  | boolean b => exact Or.inl rfl
  | number x => exact Or.inl rfl
  | bigint n => exact Or.inl rfl
  | symbol id => exact Or.inl rfl
  | function id => exact Or.inl rfl

theorem createEditorButton_total_within_stack_witness :
    (JSValue.array [.array [.string "Bold"], .string "toString"]).frames ≤ 3
      ∧ ∃ (r : JSValue) (w' : World),
        createEditorButtonStack 3 (.array [.array [.string "Bold"], .string "toString"])
            ⟨[("Bold", .object 1)], []⟩ = .ok (r, w')
          ∧ r = .array [.array [.object 1], .function 8] :=
  ⟨by decide,
    match createEditorButton_total_within_stack 3 ⟨[("Bold", .object 1)], []⟩
      (.array [.array [.string "Bold"], .string "toString"]) (by decide) with
    | ⟨r, w', hrun, htree, _⟩ => ⟨r, w', hrun, (congrArg Prod.fst htree).symm.trans rfl⟩⟩

/-! ## Nested arrays -/

theorem atPath_nil (v : JSValue) : v.atPath [] = some v := by
  cases v <;> simp [JSValue.atPath]

theorem atPath_cons_eq_some (option : JSValue) (i : ℕ) (p : List ℕ) (v : JSValue)
    (h : option.atPath (i :: p) = some v) :
    ∃ (elems : List JSValue) (x : JSValue),
      option = .array elems ∧ elems[i]? = some x ∧ x.atPath p = some v := by
  cases option with
  | array elems =>
    simp only [JSValue.atPath] at h
    cases hx : elems[i]? with
    | none => simp [hx] at h
    | some x =>
      simp only [hx] at h
      exact ⟨elems, x, rfl, hx, h⟩
  | _ => simp [JSValue.atPath] at h

/-- The value at a position of the result is the resolution of the value at the
same position of the option. -/
theorem createEditorButton_atPath (w : World) (p : List ℕ) :
    ∀ (option v : JSValue), option.atPath p = some v →
      (createEditorButton option w).1.atPath p = some (createEditorButton v w).1 := by
  induction p with
  | nil =>
    intro option v h
    rw [atPath_nil] at h
    rw [atPath_nil]
    cases h
    rfl
  | cons i p ih =>
    intro option v h
    obtain ⟨elems, x, rfl, hx, hv⟩ := atPath_cons_eq_some option i p v h
    rw [createEditorButton_array, mapCreateEditorButton_fst]
    simp only [JSValue.atPath, List.getElem?_map, hx, Option.map_some']
    exact ih x v hv

/-- C10: for arrays nested in arrays to any depth, `createEditorButton` applies
the same rules at every level and never flattens: the value at any position of
the result is the resolution of the value at that position of the option, so an
array at any depth gives an array of the same length at the same position, and
a string at any depth is replaced by the result of its lookup. With the registry
`{Bold: d}`, `[["Bold"], "Bold"]` resolves to `[[d], d]`, and the same holds
three levels deep. -/
theorem createEditorButton_nested (w : World) (option : JSValue) :
    (∀ (p : List ℕ) (v : JSValue), option.atPath p = some v →
        (createEditorButton option w).1.atPath p = some (createEditorButton v w).1)
      ∧ (∀ (p : List ℕ) (S : List JSValue), option.atPath p = some (.array S) →
          ∃ T : List JSValue, (createEditorButton option w).1.atPath p = some (.array T)
            ∧ T.length = S.length)
      ∧ (∀ (p : List ℕ) (key : String), option.atPath p = some (.string key) →
          (createEditorButton option w).1.atPath p
            = some (if toBoolean (getProperty w.commands key) = true
                then getProperty w.commands key else .null))
      ∧ (∀ (d : ℕ) (c : List ConsoleCall),
          (createEditorButton (.array [.array [.string "Bold"], .string "Bold"])
            ⟨[("Bold", .object d)], c⟩).1 = .array [.array [.object d], .object d])
      ∧ (∀ (d : ℕ) (c : List ConsoleCall),
          (createEditorButton (.array [.array [.array [.string "Bold", .number (.finite 1)]]])
            ⟨[("Bold", .object d)], c⟩).1 = .array [.array [.array [.object d, .null]]]) := by
  refine ⟨fun p v h => createEditorButton_atPath w p option v h, ?_, ?_, ?_, ?_⟩
  · intro p S h
    refine ⟨S.map (fun s => (createEditorButton s w).1), ?_, by simp⟩
    rw [createEditorButton_atPath w p option _ h, createEditorButton_array,
      mapCreateEditorButton_fst]
  · intro p key h
    rw [createEditorButton_atPath w p option _ h, createEditorButton_string_fst]
  · intro d c
    rfl
  · intro d c
    rfl

theorem createEditorButton_nested_witness :
    (JSValue.array [.array [.string "Bold"], .string "Italic"]).atPath [0, 0]
        = some (.string "Bold")
      ∧ (createEditorButton (.array [.array [.string "Bold"], .string "Italic"])
          ⟨[("Bold", .object 1)], []⟩).1.atPath [0, 0]
        = some (createEditorButton (.string "Bold") ⟨[("Bold", .object 1)], []⟩).1 :=
  ⟨rfl, (createEditorButton_nested ⟨[("Bold", .object 1)], []⟩
    (.array [.array [.string "Bold"], .string "Italic"])).1 [0, 0] (.string "Bold") rfl⟩


/-! ## The heap embedding agrees with the tree embedding -/

theorem getElem?_of_extends {h h' : List HObject} (hp : h <+: h') {a : ℕ} {o : HObject}
    (ha : h[a]? = some o) : h'[a]? = some o := by
  obtain ⟨k, rfl⟩ := hp
  have hlt : a < h.length := by
    by_contra hge
    rw [List.getElem?_eq_none (Nat.le_of_not_lt hge)] at ha
    cases ha
  rw [List.getElem?_append_left hlt]
  exact ha

theorem reifiesList_iff (heap : List HObject) (vs : List HValue) (ts : List JSValue) :
    ReifiesList heap vs ts ↔ List.Forall₂ (Reifies heap) vs ts := by
  induction vs generalizing ts with
  | nil =>
    cases ts with
    | nil => simp [ReifiesList]
    | cons t ts => simp [ReifiesList]
  | cons v vs ih =>
    cases ts with
    | nil => simp [ReifiesList]
    | cons t ts => simp [ReifiesList, ih]

theorem reifies_array_iff (heap : List HObject) (v : HValue) (ts : List JSValue) :
    Reifies heap v (.array ts)
      ↔ ∃ (addr : ℕ) (elems : List HValue),
          v = .ref addr ∧ heap[addr]? = some (.array elems) ∧ ReifiesList heap elems ts := by
  simp [Reifies]

/-- A value that stands for a tree in a heap stands for it in every extension of
the heap. -/
theorem reifies_mono {h h' : List HObject} (hp : h <+: h') (t : JSValue) :
    ∀ v : HValue, Reifies h v t → Reifies h' v t := by
  induction t using JSValue.induct with
  | harr ts ih =>
    intro v hv
    rw [reifies_array_iff] at hv ⊢
    obtain ⟨addr, elems, rfl, ha, hl⟩ := hv
    refine ⟨addr, elems, rfl, getElem?_of_extends hp ha, ?_⟩
    rw [reifiesList_iff] at hl ⊢
    clear ha
    induction hl with
    | nil => exact List.Forall₂.nil
    | cons hx _ ihl =>
      exact List.Forall₂.cons (ih _ (List.mem_cons_self _ _) _ hx)
        (ihl (fun x hx => ih x (List.mem_cons_of_mem _ hx)))
  | hother t ht =>
    intro v hv
    cases t with
    | array ts => simp [instanceofArray] at ht
    | object id =>
      simp only [Reifies] at hv ⊢
      exact ⟨hv.1, getElem?_of_extends hp hv.2⟩
    | _ => simpa [Reifies] using hv

theorem reifiesList_mono {h h' : List HObject} (hp : h <+: h') {vs : List HValue}
    {ts : List JSValue} (hl : ReifiesList h vs ts) : ReifiesList h' vs ts := by
  rw [reifiesList_iff] at hl ⊢
  exact hl.imp (fun _ _ hx => reifies_mono hp _ _ hx)

theorem reifiesProperties_mono {h h' : List HObject} (hp : h <+: h')
    {ps : List (String × HValue)} {qs : List (String × JSValue)}
    (hR : ReifiesProperties h ps qs) : ReifiesProperties h' ps qs :=
  List.Forall₂.imp (fun _ _ hx => ⟨hx.1, reifies_mono hp _ _ hx.2⟩) hR

theorem reifiesRegistry_mono {h h' : List HObject} (hp : h <+: h')
    {commands : List (String × HValue)} {R : List (String × JSValue)}
    (hR : ReifiesRegistry h commands R) : ReifiesRegistry h' commands R :=
  ⟨reifiesProperties_mono hp hR.1, reifiesProperties_mono hp hR.2⟩

/-- The inherited properties stand for each other as soon as address 0 of the
heap holds an object. -/
theorem reifiesProperties_objectPrototype {heap : List HObject}
    (h0 : heap[0]? = some .object) :
    ReifiesProperties heap objectPrototypeH objectPrototype := by
  simp [ReifiesProperties, objectPrototypeH, objectPrototype, Reifies, h0]

theorem reifiesConsole_mono {h h' : List HObject} (hp : h <+: h')
    {out : List HConsoleCall} {calls : List ConsoleCall}
    (hc : ReifiesConsole h out calls) : ReifiesConsole h' out calls :=
  List.Forall₂.imp (fun _ _ hx => ⟨hx.1, reifiesList_mono hp hx.2⟩) hc

/-- The tests of the function cannot tell a run-time value from the tree it
stands for. -/
theorem reifies_tests {heap : List HObject} {v : HValue} {t : JSValue}
    (hv : Reifies heap v t) :
    typeofH v = typeof t ∧ instanceofArrayH heap v = instanceofArray t
      ∧ toBooleanH v = toBoolean t := by
  cases t with
  | array ts =>
    rw [reifies_array_iff] at hv
    obtain ⟨addr, elems, rfl, ha, _⟩ := hv
    simp [typeofH, typeof, instanceofArrayH, instanceofArray, toBooleanH, toBoolean, ha]
  | object id =>
    simp only [Reifies] at hv
    obtain ⟨rfl, ha⟩ := hv
    simp [typeofH, typeof, instanceofArrayH, instanceofArray, toBooleanH, toBoolean, ha]
  | _ =>
    simp only [Reifies] at hv
    subst hv
    simp [typeofH, typeof, instanceofArrayH, instanceofArray, toBooleanH, toBoolean]

/-- A key is found in both lists of properties or in none, and the values found
stand for each other. -/
theorem reifiesProperties_lookup {heap : List HObject}
    {ps : List (String × HValue)} {qs : List (String × JSValue)}
    (hR : ReifiesProperties heap ps qs) (key : String) :
    (ps.lookup key = none ∧ qs.lookup key = none)
      ∨ ∃ (v : HValue) (t : JSValue),
          ps.lookup key = some v ∧ qs.lookup key = some t ∧ Reifies heap v t := by
  induction hR with
  | nil => exact Or.inl ⟨rfl, rfl⟩
  | @cons p q ps qs hx _ ih =>
    obtain ⟨a, v⟩ := p
    obtain ⟨b, t⟩ := q
    obtain ⟨hab, hvt⟩ := hx
    simp only at hab hvt
    subst hab
    cases hk : (key == a)
    · simpa [List.lookup, hk] using ih
    · exact Or.inr ⟨v, t, by simp [List.lookup, hk], by simp [List.lookup, hk], hvt⟩

theorem reifiesRegistry_getProperty {heap : List HObject}
    {commands : List (String × HValue)} {R : List (String × JSValue)}
    (hR : ReifiesRegistry heap commands R) (key : String) :
    Reifies heap (getPropertyH commands key) (getProperty R key) := by
  rcases reifiesProperties_lookup hR.1 key with ⟨h1, h2⟩ | ⟨v, t, h1, h2, hvt⟩
  · rcases reifiesProperties_lookup hR.2 key with ⟨h3, h4⟩ | ⟨v, t, h3, h4, hvt⟩
    · simp [getPropertyH, TextEditor.getProperty, h1, h2, h3, h4, Reifies]
    · simpa [getPropertyH, TextEditor.getProperty, h1, h2, h3, h4] using hvt
  · simpa [getPropertyH, TextEditor.getProperty, h1, h2] using hvt

theorem reifiesRegistry_objectKeys {heap : List HObject}
    {commands : List (String × HValue)} {R : List (String × JSValue)}
    (hR : ReifiesRegistry heap commands R) : objectKeysH commands = objectKeys R := by
  have h : List.Forall₂ (fun p q => p.1 = q.1 ∧ Reifies heap p.2 q.2) commands R := hR.1
  clear hR
  induction h with
  | nil => rfl
  | cons hx _ ih =>
    simp only [objectKeysH, TextEditor.objectKeys, List.map_cons] at ih ⊢
    rw [hx.1, ih]

theorem reifiesList_strings (heap : List HObject) (keys : List String) :
    ReifiesList heap (keys.map HValue.string) (keys.map JSValue.string) := by
  induction keys with
  | nil => simp [ReifiesList]
  | cons k ks ih => simpa [ReifiesList, Reifies] using ih


theorem createEditorButtonH_string (fuel : ℕ) (key : String) (s : Store) :
    createEditorButtonH (fuel + 1) (.string key) s
      = if toBooleanH (getPropertyH s.commands key) = false then
          if key = "TableOfContents" then
            some (.null,
              ⟨s.heap ++ [.array ((objectKeysH s.commands).map HValue.string)]
                  ++ [.array (((objectKeysH s.commands).take 20).map HValue.string)],
                s.commands,
                s.console ++ [⟨.error, [.string notFoundMessage]⟩]
                  ++ [⟨.log, [.string "Available commands:", .ref (s.heap.length + 1)]⟩]⟩)
          else some (.null, s)
        else some (getPropertyH s.commands key, s) := by
  simp [createEditorButtonH, instanceofArrayH, typeofH, consoleCallH, allocate]

/-- The heap embedding agrees with the tree embedding on every option that is
not an array. -/
theorem createEditorButtonH_resolves_nonArray (fuel : ℕ) (R : List (String × JSValue))
    (t : JSValue) (option : HValue) (s : Store) (ht : Reifies s.heap option t)
    (hR : ReifiesRegistry s.heap s.commands R) (harr : instanceofArray t = false) :
    Resolves R t s (createEditorButtonH (fuel + 1) option s) := by
  have silent : ∀ (r : HValue) (u : JSValue),
      createEditorButtonH (fuel + 1) option s = some (r, s) →
      createEditorButton t ⟨R, []⟩ = (u, ⟨R, []⟩) → Reifies s.heap r u →
      Resolves R t s (createEditorButtonH (fuel + 1) option s) := by
    intro r u hrun htree hru
    refine ⟨r, s, [], hrun, List.prefix_rfl, rfl, by simp, ?_, ?_,
      fun h => by rw [harr] at h; cases h⟩
    · rw [htree]
      exact hru
    · rw [htree]
      exact List.Forall₂.nil
  cases t with
  | array ts => simp [instanceofArray] at harr
  | object id =>
    simp only [Reifies] at ht
    obtain ⟨rfl, ha⟩ := ht
    exact silent (.ref id) (.object id)
      (by simp [createEditorButtonH, instanceofArrayH, typeofH, ha]) rfl
      (by simp [Reifies, ha])
  | string key =>
    simp only [Reifies] at ht
    subst ht
    have hget := reifiesRegistry_getProperty hR key
    have hb : toBooleanH (getPropertyH s.commands key) = toBoolean (getProperty R key) :=
      (reifies_tests hget).2.2
    cases hbt : toBoolean (getProperty R key)
    · by_cases hk : key = "TableOfContents"
      · subst hk
        rw [hbt] at hb
        rw [createEditorButtonH_string, if_pos hb, if_pos rfl]
        refine ⟨_, _, [⟨.error, [.string notFoundMessage]⟩,
          ⟨.log, [.string "Available commands:", .ref (s.heap.length + 1)]⟩], rfl, ?_, rfl,
          by simp, ?_, ?_, fun h => by cases h⟩
        · simp only [List.append_assoc]
          exact List.prefix_append _ _
        · rw [createEditorButton_string_fst]
          simp [hbt, Reifies]
        · rw [createEditorButton_string]
          simp only [hbt, if_true, consoleLog, consoleError, List.nil_append,
            List.singleton_append]
          refine List.Forall₂.cons ⟨rfl, ?_⟩ (List.Forall₂.cons ⟨rfl, ?_⟩ List.Forall₂.nil)
          · simp [ReifiesList, Reifies]
          · simp only [ReifiesList, Reifies, and_true, true_and]
            refine ⟨s.heap.length + 1,
              ((objectKeysH s.commands).take 20).map HValue.string, rfl, ?_, ?_⟩
            · rw [List.append_assoc, List.getElem?_append_right (Nat.le_add_right _ _)]
              simp
            · rw [reifiesRegistry_objectKeys hR]
              exact reifiesList_strings _ _
      · rw [hbt] at hb
        refine silent .null .null ?_ ?_ (by simp [Reifies])
        · rw [createEditorButtonH_string, if_pos hb, if_neg hk]
        · rw [createEditorButton_string]
          simp [hbt, hk]
    · rw [hbt] at hb
      refine silent (getPropertyH s.commands key) (getProperty R key) ?_ ?_ hget
      · rw [createEditorButtonH_string]
        simp [hb]
      · rw [createEditorButton_string]
        simp [hbt]
  | undefined =>
    simp only [Reifies] at ht
    subst ht
    exact silent .null .null (by simp [createEditorButtonH, instanceofArrayH, typeofH]) rfl
      (by simp [Reifies])
  | null =>
    simp only [Reifies] at ht
    subst ht
    exact silent .null .null (by simp [createEditorButtonH, instanceofArrayH, typeofH]) rfl
      (by simp [Reifies])
  | boolean b =>
    simp only [Reifies] at ht
    subst ht
    exact silent .null .null (by simp [createEditorButtonH, instanceofArrayH, typeofH]) rfl
      (by simp [Reifies])
  | number x =>
    simp only [Reifies] at ht
    subst ht
    exact silent .null .null (by simp [createEditorButtonH, instanceofArrayH, typeofH]) rfl
      (by simp [Reifies])
  | bigint n =>
    simp only [Reifies] at ht
    subst ht
    exact silent .null .null (by simp [createEditorButtonH, instanceofArrayH, typeofH]) rfl
      (by simp [Reifies])
  | symbol id =>
    simp only [Reifies] at ht
    subst ht
    exact silent .null .null (by simp [createEditorButtonH, instanceofArrayH, typeofH]) rfl
      (by simp [Reifies])
  | function id =>
    simp only [Reifies] at ht
    subst ht
    exact silent .null .null (by simp [createEditorButtonH, instanceofArrayH, typeofH]) rfl
      (by simp [Reifies])


/-- The tree embedding of `option.map` on a list with a first element, started
with an empty console. -/
theorem mapCreateEditorButton_cons_empty (u : JSValue) (us : List JSValue)
    (R : List (String × JSValue)) :
    (mapCreateEditorButton (u :: us) ⟨R, []⟩).1
        = (createEditorButton u ⟨R, []⟩).1 :: (mapCreateEditorButton us ⟨R, []⟩).1
      ∧ (mapCreateEditorButton (u :: us) ⟨R, []⟩).2.console
        = (createEditorButton u ⟨R, []⟩).2.console
            ++ (mapCreateEditorButton us ⟨R, []⟩).2.console := by
  have hw : (createEditorButton u ⟨R, []⟩).2
      = ⟨R, (createEditorButton u ⟨R, []⟩).2.console⟩ := by
    rw [createEditorButton_frame u R []]
  rw [mapCreateEditorButton_cons, hw, mapCreateEditorButton_frame us R]
  exact ⟨rfl, rfl⟩

/-- The loop of `map` agrees with the tree embedding, for a callback that
does. -/
theorem arrayMapLoop_resolves (R : List (String × JSValue))
    (callback : HValue → Store → Option (HValue × Store)) (addr : ℕ) (elems : List HValue) :
    ∀ (ks : List ℕ) (us : List JSValue) (s : Store),
      (∀ u ∈ us, ∀ (x : HValue) (s1 : Store), Reifies s1.heap x u →
        ReifiesRegistry s1.heap s1.commands R → Resolves R u s1 (callback x s1)) →
      s.heap[addr]? = some (.array elems) →
      ReifiesRegistry s.heap s.commands R →
      List.Forall₂ (fun k u => ∃ x, elems[k]? = some x ∧ Reifies s.heap x u) ks us →
      ∃ (ys : List HValue) (s' : Store) (out : List HConsoleCall),
        arrayMapLoop callback addr ks s = some (ys, s')
          ∧ s.heap <+: s'.heap
          ∧ s'.commands = s.commands
          ∧ s'.console = s.console ++ out
          ∧ ReifiesList s'.heap ys (mapCreateEditorButton us ⟨R, []⟩).1
          ∧ ReifiesConsole s'.heap out (mapCreateEditorButton us ⟨R, []⟩).2.console := by
  intro ks
  induction ks with
  | nil =>
    intro us s _ _ _ hks
    cases hks
    refine ⟨[], s, [], by simp [arrayMapLoop], List.prefix_rfl, rfl, by simp, ?_, ?_⟩
    · simp [mapCreateEditorButton_nil, ReifiesList]
    · rw [mapCreateEditorButton_nil]
      exact List.Forall₂.nil
  | cons k ks ih =>
    intro us s hcb ha hR hks
    cases hks with
    | @cons _ u _ us hk hrest =>
      obtain ⟨x, hx, hxu⟩ := hk
      obtain ⟨r1, s1, out1, hrun1, hp1, hc1, hcon1, hr1, hout1, _⟩ :=
        hcb u (List.mem_cons_self _ _) x s hxu hR
      have hR1 : ReifiesRegistry s1.heap s1.commands R := by
        rw [hc1]
        exact reifiesRegistry_mono hp1 hR
      obtain ⟨ys, s2, out2, hrun2, hp2, hc2, hcon2, hr2, hout2⟩ :=
        ih us s1 (fun v hv => hcb v (List.mem_cons_of_mem _ hv))
          (getElem?_of_extends hp1 ha) hR1
          (hrest.imp (fun _ _ ⟨y, hy, hyv⟩ => ⟨y, hy, reifies_mono hp1 _ _ hyv⟩))
      refine ⟨r1 :: ys, s2, out1 ++ out2, ?_, hp1.trans hp2, by rw [hc2, hc1],
        by rw [hcon2, hcon1, List.append_assoc], ?_, ?_⟩
      · simp [arrayMapLoop, ha, hx, hrun1, hrun2]
      · rw [(mapCreateEditorButton_cons_empty u us R).1]
        exact ⟨reifies_mono hp2 _ _ hr1, hr2⟩
      · rw [(mapCreateEditorButton_cons_empty u us R).2]
        exact List.rel_append (reifiesConsole_mono hp2 hout1) hout2

/-- The elements of an array, read by index, stand for the elements of the tree
of the array. -/
theorem forall₂_range_of_reifiesList {heap : List HObject} {elems : List HValue}
    {ts : List JSValue} (hl : ReifiesList heap elems ts) :
    List.Forall₂ (fun k u => ∃ x, elems[k]? = some x ∧ Reifies heap x u)
      (List.range elems.length) ts := by
  rw [reifiesList_iff] at hl
  rw [List.forall₂_iff_get]
  have hlen := hl.length_eq
  refine ⟨by simp [hlen], ?_⟩
  intro i h1 h2
  have hi : i < elems.length := by simpa using h1
  refine ⟨elems[i], ?_, ?_⟩
  · simp [List.getElem?_eq_getElem hi]
  · exact (List.forall₂_iff_get.mp hl).2 i hi h2

theorem depth_le_depthList {u : JSValue} {ts : List JSValue} (h : u ∈ ts) :
    u.depth ≤ depthList ts := by
  induction ts with
  | nil => cases h
  | cons t ts ih =>
    simp only [depthList]
    rcases List.mem_cons.mp h with rfl | h
    · exact le_max_left _ _
    · exact le_trans (ih h) (le_max_right _ _)

/-- With more fuel than the option has levels of nesting, the heap embedding
returns, and it agrees with the tree embedding. -/
theorem createEditorButtonH_resolves (R : List (String × JSValue)) :
    ∀ (fuel : ℕ) (t : JSValue), t.depth < fuel → ∀ (option : HValue) (s : Store),
      Reifies s.heap option t → ReifiesRegistry s.heap s.commands R →
      Resolves R t s (createEditorButtonH fuel option s) := by
  intro fuel
  induction fuel with
  | zero =>
    intro t hd
    exact absurd hd (Nat.not_lt_zero _)
  | succ fuel ih =>
    intro t hd option s ht hR
    cases harr : instanceofArray t
    · exact createEditorButtonH_resolves_nonArray fuel R t option s ht hR harr
    · cases t with
      | array ts =>
        have hts := ht
        rw [reifies_array_iff] at hts
        obtain ⟨addr, elems, rfl, ha, hl⟩ := hts
        have hdl : depthList ts < fuel := by
          simp only [JSValue.depth] at hd
          omega
        obtain ⟨ys, s1, out, hrun, hp, hc, hcon, hys, hout⟩ :=
          arrayMapLoop_resolves R (createEditorButtonH fuel) addr elems
            (List.range elems.length) ts s
            (fun u hu x s1 hx hR1 =>
              ih u (lt_of_le_of_lt (depth_le_depthList hu) hdl) x s1 hx hR1)
            ha hR (forall₂_range_of_reifiesList hl)
        have hp' : s1.heap <+: s1.heap ++ [HObject.array ys] := List.prefix_append _ _
        refine ⟨.ref s1.heap.length, ⟨s1.heap ++ [.array ys], s1.commands, s1.console⟩, out,
          ?_, hp.trans hp', hc, hcon, ?_, ?_, fun _ => ⟨s1.heap.length, rfl, hp.length_le⟩⟩
        · simp [createEditorButtonH, instanceofArrayH, ha, hrun, allocate]
        · rw [createEditorButton_array, reifies_array_iff]
          exact ⟨s1.heap.length, ys, rfl, by simp, reifiesList_mono hp' hys⟩
        · rw [createEditorButton_array]
          exact reifiesConsole_mono hp' hout
      | _ => simp [instanceofArray] at harr


/-! ## Purity -/

/-- C9: resolution is a pure function of the option and the registry. Whatever
the store, the reference that stands for the option `t` and the fuel (more than
the depth of `t`), a call returns, and the value returned and the console calls
made stand for the value and the calls that the tree embedding gives for `t`
and the registry `R` alone. The call leaves the properties of `commands` as
they are and overwrites nothing in the heap, so that the registry still stands
for `R` and the option for `t`, and for an array it returns a reference to a new
array, not one of the heap before the call. A second call with the same option,
made in the store the first call leaves, returns as well, and its result and
its console calls stand for the same value and the same calls as those of the
first call. -/
theorem createEditorButton_pure (R : List (String × JSValue)) (t : JSValue) (fuel : ℕ)
    (option : HValue) (s : Store) (hfuel : t.depth < fuel)
    (ht : Reifies s.heap option t) (hR : ReifiesRegistry s.heap s.commands R) :
    ∃ (r : HValue) (s' : Store) (out : List HConsoleCall),
      createEditorButtonH fuel option s = some (r, s')
        ∧ Reifies s'.heap r (createEditorButton t ⟨R, []⟩).1
        ∧ s'.console = s.console ++ out
        ∧ ReifiesConsole s'.heap out (createEditorButton t ⟨R, []⟩).2.console
        ∧ s'.commands = s.commands
        ∧ ReifiesRegistry s'.heap s'.commands R
        ∧ s.heap <+: s'.heap
        ∧ Reifies s'.heap option t
        ∧ (instanceofArray t = true →
            ∃ addr : ℕ, r = .ref addr ∧ s.heap.length ≤ addr ∧ s.heap[addr]? = none
              ∧ r ≠ option)
        ∧ ∃ (r2 : HValue) (s2 : Store) (out2 : List HConsoleCall),
            createEditorButtonH fuel option s' = some (r2, s2)
              ∧ Reifies s2.heap r2 (createEditorButton t ⟨R, []⟩).1
              ∧ Reifies s2.heap r (createEditorButton t ⟨R, []⟩).1
              ∧ s2.console = s'.console ++ out2
              ∧ ReifiesConsole s2.heap out2 (createEditorButton t ⟨R, []⟩).2.console
              ∧ ReifiesConsole s2.heap out (createEditorButton t ⟨R, []⟩).2.console := by
  obtain ⟨r, s', out, hrun, hp, hc, hcon, hr, hout, hnew⟩ :=
    createEditorButtonH_resolves R fuel t hfuel option s ht hR
  have hR' : ReifiesRegistry s'.heap s'.commands R := by
    rw [hc]
    exact reifiesRegistry_mono hp hR
  have ht' : Reifies s'.heap option t := reifies_mono hp _ _ ht
  obtain ⟨r2, s2, out2, hrun2, hp2, _, hcon2, hr2, hout2, _⟩ :=
    createEditorButtonH_resolves R fuel t hfuel option s' ht' hR'
  refine ⟨r, s', out, hrun, hr, hcon, hout, hc, hR', hp, ht', ?_,
    r2, s2, out2, hrun2, hr2, reifies_mono hp2 _ _ hr, hcon2, hout2,
    reifiesConsole_mono hp2 hout⟩
  · intro harr
    obtain ⟨addr, hra, hle⟩ := hnew harr
    refine ⟨addr, hra, hle, List.getElem?_eq_none hle, ?_⟩
    intro hro
    have hinst := (reifies_tests ht).2.1
    rw [harr, ← hro, hra] at hinst
    simp [instanceofArrayH, List.getElem?_eq_none hle] at hinst

theorem createEditorButton_pure_witness :
    (JSValue.array [.string "Bold", .string "TableOfContents"]).depth < 2
      ∧ ∃ (r : HValue) (s' : Store) (out : List HConsoleCall),
        createEditorButtonH 2 (.ref 1)
            ⟨[.object, .array [.string "Bold", .string "TableOfContents"], .object],
              [("Bold", .ref 2)], []⟩ = some (r, s')
          ∧ Reifies s'.heap r
              (createEditorButton (.array [.string "Bold", .string "TableOfContents"])
                ⟨[("Bold", .object 2)], []⟩).1
          ∧ s'.console
              = (Store.mk [.object, .array [.string "Bold", .string "TableOfContents"], .object]
                  [("Bold", .ref 2)] []).console ++ out
          ∧ ReifiesConsole s'.heap out
              (createEditorButton (.array [.string "Bold", .string "TableOfContents"])
                ⟨[("Bold", .object 2)], []⟩).2.console
          ∧ s'.commands = [("Bold", .ref 2)]
          ∧ ReifiesRegistry s'.heap s'.commands [("Bold", .object 2)]
          ∧ [.object, .array [.string "Bold", .string "TableOfContents"], .object] <+: s'.heap
          ∧ Reifies s'.heap (.ref 1) (.array [.string "Bold", .string "TableOfContents"])
          ∧ (instanceofArray (.array [.string "Bold", .string "TableOfContents"]) = true →
              ∃ addr : ℕ, r = .ref addr ∧ 3 ≤ addr
                ∧ ([.object, .array [.string "Bold", .string "TableOfContents"], .object]
                    : List HObject)[addr]? = none
                ∧ r ≠ .ref 1)
          ∧ ∃ (r2 : HValue) (s2 : Store) (out2 : List HConsoleCall),
              createEditorButtonH 2 (.ref 1) s' = some (r2, s2)
                ∧ Reifies s2.heap r2
                    (createEditorButton (.array [.string "Bold", .string "TableOfContents"])
                      ⟨[("Bold", .object 2)], []⟩).1
                ∧ Reifies s2.heap r
                    (createEditorButton (.array [.string "Bold", .string "TableOfContents"])
                      ⟨[("Bold", .object 2)], []⟩).1
                ∧ s2.console = s'.console ++ out2
                ∧ ReifiesConsole s2.heap out2
                    (createEditorButton (.array [.string "Bold", .string "TableOfContents"])
                      ⟨[("Bold", .object 2)], []⟩).2.console
                ∧ ReifiesConsole s2.heap out
                    (createEditorButton (.array [.string "Bold", .string "TableOfContents"])
                      ⟨[("Bold", .object 2)], []⟩).2.console :=
  ⟨by decide,
    createEditorButton_pure [("Bold", .object 2)]
      (.array [.string "Bold", .string "TableOfContents"]) 2 (.ref 1)
      ⟨[.object, .array [.string "Bold", .string "TableOfContents"], .object], [("Bold", .ref 2)], []⟩
      (by decide)
      ⟨1, [.string "Bold", .string "TableOfContents"], rfl, rfl, rfl, rfl, trivial⟩
      ⟨List.Forall₂.cons ⟨rfl, rfl, rfl⟩ List.Forall₂.nil,
        reifiesProperties_objectPrototype rfl⟩⟩

/-- A run of the heap embedding, with `Object.prototype` at address 0: the
array at address 1 is resolved into a new array at address 5, after the two
arrays of the console call at 3 and 4. -/
theorem createEditorButtonH_run : createEditorButtonH 2 (.ref 1)
    ⟨[.object, .array [.string "Bold", .string "TableOfContents"], .object],
      [("Bold", .ref 2)], []⟩
    = some (.ref 5,
        ⟨[.object, .array [.string "Bold", .string "TableOfContents"], .object,
            .array [.string "Bold"], .array [.string "Bold"], .array [.ref 2, .null]],
          [("Bold", .ref 2)],
          [⟨.error, [.string notFoundMessage]⟩,
            ⟨.log, [.string "Available commands:", .ref 4]⟩]⟩) := by decide

/-! ## Falsy values in the registry -/

/-- C11: a string counts as found only when the value read from the registry is
truthy. For every registry that holds a falsy value (such as `null`, `false`,
`0` or the empty string) for a key, `createEditorButton(key)` returns `null`,
and for the key `"TableOfContents"` the two console calls are made although the
key is present. -/
theorem createEditorButton_present_falsy (w : World) (key : String)
    (hk : key ∈ objectKeys w.commands)
    (hf : toBoolean (getProperty w.commands key) = false) :
    (createEditorButton (.string key) w).1 = .null
      ∧ (key = "TableOfContents" →
          "TableOfContents" ∈ objectKeys w.commands
            ∧ (createEditorButton (.string key) w).2.console
              = w.console ++
                [⟨.error, [.string notFoundMessage]⟩,
                  ⟨.log, [.string "Available commands:",
                    .array (((objectKeys w.commands).take 20).map JSValue.string)]⟩])
      ∧ toBoolean .null = false
      ∧ toBoolean (.boolean false) = false
      ∧ toBoolean (.number (.finite 0)) = false
      ∧ toBoolean (.string "") = false := by
  refine ⟨?_, ?_, rfl, rfl, rfl, rfl⟩
  · rw [createEditorButton_string_fst]
    simp [hf]
  · intro hkey
    subst hkey
    refine ⟨hk, ?_⟩
    rw [createEditorButton_string]
    simp [hf, consoleLog, consoleError]

theorem createEditorButton_present_falsy_witness :
    "TableOfContents" ∈ objectKeys
        (World.mk [("Bold", .object 1), ("TableOfContents", .string "")] []).commands
      ∧ (createEditorButton (.string "TableOfContents")
          ⟨[("Bold", .object 1), ("TableOfContents", .string "")], []⟩).1 = .null
      ∧ (createEditorButton (.string "TableOfContents")
          ⟨[("Bold", .object 1), ("TableOfContents", .string "")], []⟩).2.console
        = [⟨.error, [.string notFoundMessage]⟩,
            ⟨.log, [.string "Available commands:",
              .array [.string "Bold", .string "TableOfContents"]]⟩] :=
  ⟨by simp [objectKeys],
    (createEditorButton_present_falsy
      ⟨[("Bold", .object 1), ("TableOfContents", .string "")], []⟩ "TableOfContents"
      (by simp [objectKeys]) rfl).1,
    ((createEditorButton_present_falsy
      ⟨[("Bold", .object 1), ("TableOfContents", .string "")], []⟩ "TableOfContents"
      (by simp [objectKeys]) rfl).2.1 rfl).2⟩


/-! ## Registries that hold objects only -/

/-- The value returned for an array: the array of the values returned for its
elements. -/
theorem createEditorButton_array_fst (elems : List JSValue) (w : World) :
    (createEditorButton (.array elems) w).1
      = .array (elems.map (fun x => (createEditorButton x w).1)) := by
  rw [createEditorButton_array, mapCreateEditorButton_fst]

/-- A value whose `typeof` is `'object'` and that is not an array is returned
as it is, in the world as it is. -/
theorem createEditorButton_of_typeof_object (w : World) (v : JSValue)
    (hobj : typeof v = "object") (harr : instanceofArray v = false) :
    createEditorButton v w = (v, w) := by
  rw [createEditorButton_of_not_array v w harr]
  simp [createEditorButtonNonArray, hobj]

/-- With a registry that holds objects only, the value returned for an option
that is not an array is an object or `null` (its `typeof` is `'object'` and it
is not an array), or it is a function that the registry inherits under the
option, a string that is not among its keys. -/
theorem createEditorButton_nonArray_kind (w : World) (option : JSValue)
    (hreg : ∀ p ∈ w.commands, typeof p.2 = "object" ∧ instanceofArray p.2 = false)
    (harr : instanceofArray option = false) :
    (typeof (createEditorButton option w).1 = "object"
        ∧ instanceofArray (createEditorButton option w).1 = false)
      ∨ ∃ key : String, option = .string key ∧ key ∉ objectKeys w.commands
          ∧ (createEditorButton option w).1 = getProperty w.commands key
          ∧ (∃ p ∈ objectPrototype, p.1 = key ∧ p.2 = (createEditorButton option w).1)
          ∧ typeof (createEditorButton option w).1 = "function" := by
  cases option with
  | array elems => simp [instanceofArray] at harr
  | string key =>
    rw [createEditorButton_string_fst]
    by_cases hb : toBoolean (getProperty w.commands key) = true
    · rw [if_pos hb]
      rcases getProperty_cases w.commands key with ⟨p, hp, _, hp2⟩ | ⟨hk, p, hp, hp1, hp2⟩ | h3
      · rw [← hp2]
        exact Or.inl (hreg p hp)
      · rcases objectPrototype_values p hp with ⟨id, hid⟩ | hobj
        · refine Or.inr ⟨key, rfl, hk, rfl, ⟨p, hp, hp1, hp2⟩, ?_⟩
          rw [← hp2, hid]
          rfl
        · rw [← hp2, hobj]
          exact Or.inl ⟨rfl, rfl⟩
      · rw [h3.2.2] at hb
        simp [toBoolean] at hb
    · rw [if_neg hb]
      exact Or.inl ⟨rfl, rfl⟩
  | object id => exact Or.inl ⟨rfl, rfl⟩
  | null => exact Or.inl ⟨rfl, rfl⟩
  | undefined => exact Or.inl ⟨rfl, rfl⟩
  | boolean b => exact Or.inl ⟨rfl, rfl⟩
  | number x => exact Or.inl ⟨rfl, rfl⟩
  | bigint n => exact Or.inl ⟨rfl, rfl⟩
  | symbol id => exact Or.inl ⟨rfl, rfl⟩
  | function id => exact Or.inl ⟨rfl, rfl⟩

theorem strings_subset_stringsList {x : JSValue} {xs : List JSValue} (h : x ∈ xs) :
    ∀ key ∈ x.strings, key ∈ stringsList xs := by
  induction xs with
  | nil => cases h
  | cons y ys ih =>
    intro key hkey
    simp only [stringsList, List.mem_append]
    rcases List.mem_cons.mp h with rfl | h
    · exact Or.inl hkey
    · exact Or.inr (ih h key hkey)

/-- With a registry that holds objects only and an option none of whose strings
is read as a function, resolving the result of a call again, in any world with
the same registry, gives the result back. -/
theorem createEditorButton_idempotent_of (option : JSValue) :
    ∀ (w w' : World),
      (∀ p ∈ w.commands, typeof p.2 = "object" ∧ instanceofArray p.2 = false) →
      (∀ key ∈ option.strings, typeof (getProperty w.commands key) ≠ "function") →
      w'.commands = w.commands →
      (createEditorButton (createEditorButton option w).1 w').1
        = (createEditorButton option w).1 := by
  induction option using JSValue.induct with
  | harr elems ih =>
    intro w w' hreg hinh hw
    rw [createEditorButton_array_fst, createEditorButton_array_fst, List.map_map]
    congr 1
    apply List.map_congr_left
    intro x hx
    refine ih x hx w w' hreg (fun key hkey => hinh key ?_) hw
    simp only [JSValue.strings]
    exact strings_subset_stringsList hx key hkey
  | hother v hv =>
    intro w w' hreg hinh _
    rcases createEditorButton_nonArray_kind w v hreg hv with
      ⟨hobj, harr⟩ | ⟨key, hkey, _, hget, _, hfun⟩
    · rw [createEditorButton_of_typeof_object w' _ hobj harr]
    · subst hkey
      rw [hget] at hfun
      exact absurd hfun (hinh key (by simp [JSValue.strings]))

/-- C12, as stated, fails: the registry `{Bold: d}` holds an object only, the
call for `"toString"` returns the function the registry inherits under that
key, and the call for that function returns `null`. -/
theorem createEditorButton_not_idempotent_on_inherited :
    (∀ p ∈ (World.mk [("Bold", .object 1)] []).commands,
        typeof p.2 = "object" ∧ instanceofArray p.2 = false)
      ∧ (createEditorButton (.string "toString") ⟨[("Bold", .object 1)], []⟩).1 = .function 8
      ∧ (createEditorButton
          (createEditorButton (.string "toString") ⟨[("Bold", .object 1)], []⟩).1
          ⟨[("Bold", .object 1)], []⟩).1 = .null
      ∧ (createEditorButton
          (createEditorButton (.string "toString") ⟨[("Bold", .object 1)], []⟩).1
          ⟨[("Bold", .object 1)], []⟩).1
        ≠ (createEditorButton (.string "toString") ⟨[("Bold", .object 1)], []⟩).1 := by
  refine ⟨by simp [typeof, instanceofArray], rfl, rfl, ?_⟩
  intro h
  have h2 : (JSValue.null : JSValue) = .function 8 := h
  cases h2

/-- C12, amended: when every value of the registry is an object that is not an
array, and no string of the option, at any depth, is read from the registry as
a function (as the names inherited from `Object.prototype` are when the
registry does not hold them itself), `createEditorButton` is idempotent:
resolving the result of a call again, in the world the call leaves or in the
world it started in, gives the same result. -/
theorem createEditorButton_idempotent (w : World) (option : JSValue)
    (hreg : ∀ p ∈ w.commands, typeof p.2 = "object" ∧ instanceofArray p.2 = false)
    (hinh : ∀ key ∈ option.strings, typeof (getProperty w.commands key) ≠ "function") :
    (createEditorButton (createEditorButton option w).1 (createEditorButton option w).2).1
        = (createEditorButton option w).1
      ∧ (createEditorButton (createEditorButton option w).1 w).1
        = (createEditorButton option w).1 :=
  ⟨createEditorButton_idempotent_of option w _ hreg hinh
      (createEditorButton_commands option w),
    createEditorButton_idempotent_of option w w hreg hinh rfl⟩

theorem createEditorButton_idempotent_witness :
    (∀ p ∈ (World.mk [("Bold", .object 1)] []).commands,
        typeof p.2 = "object" ∧ instanceofArray p.2 = false)
      ∧ (∀ key ∈ (JSValue.array [.string "Bold", .array [.string "__proto__", .number .nan]]).strings,
          typeof (getProperty (World.mk [("Bold", .object 1)] []).commands key) ≠ "function")
      ∧ (createEditorButton
          (createEditorButton (.array [.string "Bold", .array [.string "__proto__", .number .nan]])
            ⟨[("Bold", .object 1)], []⟩).1
          (createEditorButton (.array [.string "Bold", .array [.string "__proto__", .number .nan]])
            ⟨[("Bold", .object 1)], []⟩).2).1
        = .array [.object 1, .array [.object 0, .null]] :=
  ⟨by simp [typeof, instanceofArray], by decide,
    (createEditorButton_idempotent ⟨[("Bold", .object 1)], []⟩
      (.array [.string "Bold", .array [.string "__proto__", .number .nan]])
      (by simp [typeof, instanceofArray]) (by decide)).1⟩

/-- With a registry that holds objects only, every value found in the result
by a list of indices is an array, an object or `null`, or a function inherited
from `Object.prototype`. -/
theorem createEditorButton_leaves_of (option : JSValue) :
    ∀ (w : World),
      (∀ p ∈ w.commands, typeof p.2 = "object" ∧ instanceofArray p.2 = false) →
      ∀ (path : List ℕ) (v : JSValue), (createEditorButton option w).1.atPath path = some v →
        instanceofArray v = true ∨ typeof v = "object"
          ∨ (typeof v = "function" ∧ ∃ p ∈ objectPrototype, p.2 = v) := by
  induction option using JSValue.induct with
  | harr elems ih =>
    intro w hreg path v hv
    rw [createEditorButton_array_fst] at hv
    cases path with
    | nil =>
      rw [atPath_nil] at hv
      cases hv
      exact Or.inl rfl
    | cons i path =>
      obtain ⟨ys, y, hys, hy, hyv⟩ := atPath_cons_eq_some _ i path v hv
      cases hys
      rw [List.getElem?_map] at hy
      cases hx : elems[i]? with
      | none => simp [hx] at hy
      | some x =>
        simp only [hx, Option.map_some', Option.some.injEq] at hy
        subst hy
        exact ih x (List.getElem?_mem hx) w hreg path v hyv
  | hother o ho =>
    intro w hreg path v hv
    cases path with
    | nil =>
      rw [atPath_nil] at hv
      cases hv
      rcases createEditorButton_nonArray_kind w o hreg ho with
        ⟨hobj, _⟩ | ⟨key, _, _, _, ⟨p, hp, _, hp2⟩, hfun⟩
      · exact Or.inr (Or.inl hobj)
      · exact Or.inr (Or.inr ⟨hfun, p, hp, hp2⟩)
    | cons i path =>
      obtain ⟨ys, _, hys, _, _⟩ := atPath_cons_eq_some _ i path v hv
      rcases createEditorButton_nonArray_kind w o hreg ho with
        ⟨_, harr⟩ | ⟨key, _, _, _, _, hfun⟩
      · rw [hys] at harr
        simp [instanceofArray] at harr
      · rw [hys] at hfun
        simp [typeof] at hfun

/-- C13, as stated, fails: with the registry `{Bold: d}`, which holds an object
only, the result for `["Bold", "hasOwnProperty"]` holds at index 1 the function
the registry inherits under that key: a leaf that is neither an object nor
`null`. -/
theorem createEditorButton_leaf_inherited_function :
    (∀ p ∈ (World.mk [("Bold", .object 1)] []).commands,
        typeof p.2 = "object" ∧ instanceofArray p.2 = false)
      ∧ (createEditorButton (.array [.string "Bold", .string "hasOwnProperty"])
          ⟨[("Bold", .object 1)], []⟩).1 = .array [.object 1, .function 3]
      ∧ (createEditorButton (.array [.string "Bold", .string "hasOwnProperty"])
          ⟨[("Bold", .object 1)], []⟩).1.atPath [1] = some (.function 3)
      ∧ ¬ ((∃ elems : List JSValue, JSValue.function 3 = .array elems)
          ∨ JSValue.function 3 = .null ∨ ∃ id : ℕ, JSValue.function 3 = .object id) := by
  refine ⟨by simp [typeof, instanceofArray], rfl, rfl, ?_⟩
  simp

/-- C13, amended: when every value of the registry is an object that is not an
array, the result of `createEditorButton` holds no string, number or boolean at
any depth: every value found in it by a list of indices is an array, an object,
`null` or a function inherited from `Object.prototype`, so every leaf is an
object, `null` or such a function. -/
theorem createEditorButton_leaves (w : World) (option : JSValue)
    (hreg : ∀ p ∈ w.commands, typeof p.2 = "object" ∧ instanceofArray p.2 = false) :
    ∀ (path : List ℕ) (v : JSValue), (createEditorButton option w).1.atPath path = some v →
      ((∃ elems : List JSValue, v = .array elems) ∨ v = .null ∨ (∃ id : ℕ, v = .object id)
          ∨ ((∃ id : ℕ, v = .function id) ∧ ∃ p ∈ objectPrototype, p.2 = v))
        ∧ (∀ s : String, v ≠ .string s)
        ∧ (∀ x : JSNumber, v ≠ .number x)
        ∧ (∀ b : Bool, v ≠ .boolean b) := by
  intro path v hv
  have h := createEditorButton_leaves_of option w hreg path v hv
  cases v with
  | array elems => exact ⟨Or.inl ⟨elems, rfl⟩, by simp⟩
  | null => exact ⟨Or.inr (Or.inl rfl), by simp⟩
  | object id => exact ⟨Or.inr (Or.inr (Or.inl ⟨id, rfl⟩)), by simp⟩
  | function id =>
    refine ⟨Or.inr (Or.inr (Or.inr ⟨⟨id, rfl⟩, ?_⟩)), by simp⟩
    rcases h with h | h | h
    · simp [instanceofArray] at h
    · simp [typeof] at h
    · exact h.2
  | undefined => simp [instanceofArray, typeof] at h
  | boolean b => simp [instanceofArray, typeof] at h
  | number x => simp [instanceofArray, typeof] at h
  | bigint n => simp [instanceofArray, typeof] at h
  | string s => simp [instanceofArray, typeof] at h
  | symbol id => simp [instanceofArray, typeof] at h

theorem createEditorButton_leaves_witness :
    (∀ p ∈ (World.mk [("Bold", .object 1)] []).commands,
        typeof p.2 = "object" ∧ instanceofArray p.2 = false)
      ∧ (createEditorButton
          (.array [.array [.string "Italic", .string "Bold"], .boolean true, .object 5])
          ⟨[("Bold", .object 1)], []⟩).1.atPath [0, 1] = some (.object 1)
      ∧ (((∃ elems : List JSValue, JSValue.object 1 = .array elems) ∨ JSValue.object 1 = .null
            ∨ (∃ id : ℕ, JSValue.object 1 = .object id)
            ∨ ((∃ id : ℕ, JSValue.object 1 = .function id)
              ∧ ∃ p ∈ objectPrototype, p.2 = JSValue.object 1))
          ∧ (∀ s : String, JSValue.object 1 ≠ .string s)
          ∧ (∀ x : JSNumber, JSValue.object 1 ≠ .number x)
          ∧ (∀ b : Bool, JSValue.object 1 ≠ .boolean b)) :=
  ⟨by simp [typeof, instanceofArray], rfl,
    createEditorButton_leaves ⟨[("Bold", .object 1)], []⟩
      (.array [.array [.string "Italic", .string "Bold"], .boolean true, .object 5])
      (by simp [typeof, instanceofArray]) [0, 1] (.object 1) rfl⟩

/-! ## Console output of arrays -/

/-- The console after a call: the console before it, followed by the calls the
function makes when it starts with an empty console. -/
theorem createEditorButton_console (option : JSValue) (R : List (String × JSValue))
    (c : List ConsoleCall) :
    (createEditorButton option ⟨R, c⟩).2.console
      = c ++ (createEditorButton option ⟨R, []⟩).2.console := by
  rw [createEditorButton_frame option R c]

/-- The console calls of `option.map(createEditorButton)`: those of the
elements, one element after the other. -/
theorem mapCreateEditorButton_console (xs : List JSValue) (R : List (String × JSValue)) :
    (mapCreateEditorButton xs ⟨R, []⟩).2.console
      = (xs.map (fun x => (createEditorButton x ⟨R, []⟩).2.console)).flatten := by
  induction xs with
  | nil => simp [mapCreateEditorButton_nil]
  | cons x xs ih =>
    rw [(mapCreateEditorButton_cons_empty x xs R).2, ih]
    simp

/-- The console calls made for a string: two for `"TableOfContents"` with a
falsy lookup, none otherwise. -/
theorem createEditorButton_string_console (key : String) (R : List (String × JSValue)) :
    (createEditorButton (.string key) ⟨R, []⟩).2.console
      = if toBoolean (getProperty R key) = false ∧ key = "TableOfContents" then
          [⟨.error, [.string notFoundMessage]⟩,
            ⟨.log, [.string "Available commands:",
              .array (((objectKeys R).take 20).map JSValue.string)]⟩]
        else [] := by
  rw [createEditorButton_string]
  by_cases hb : toBoolean (getProperty R key) = false
  · by_cases hk : key = "TableOfContents"
    · subst hk
      simp [hb, consoleLog, consoleError]
    · simp [hb, hk]
  · simp [hb]

/-- Without the key `"TableOfContents"` in the registry, a call makes two
console calls for every occurrence of the string `"TableOfContents"` in the
option. -/
theorem createEditorButton_console_length (R : List (String × JSValue))
    (h : "TableOfContents" ∉ objectKeys R) (option : JSValue) :
    (createEditorButton option ⟨R, []⟩).2.console.length = 2 * countTableOfContents option := by
  induction option using JSValue.induct with
  | harr elems ih =>
    rw [createEditorButton_array]
    simp only [countTableOfContents]
    induction elems with
    | nil => simp [mapCreateEditorButton_nil, countTableOfContentsList]
    | cons x xs ihx =>
      rw [(mapCreateEditorButton_cons_empty x xs R).2, List.length_append,
        ih x (List.mem_cons_self _ _), ihx (fun y hy => ih y (List.mem_cons_of_mem _ hy))]
      simp only [countTableOfContentsList]
      omega
  | hother v hv =>
    cases v with
    | array elems => simp [instanceofArray] at hv
    | string key =>
      rw [createEditorButton_string_console]
      by_cases hk : key = "TableOfContents"
      · subst hk
        simp [getProperty_tableOfContents R h, toBoolean, countTableOfContents]
      · simp [hk, countTableOfContents]
    | _ => rfl

/-- An option without the string `"TableOfContents"` makes no console call,
whatever the registry. -/
theorem createEditorButton_console_of_count_zero (R : List (String × JSValue))
    (option : JSValue) (h : countTableOfContents option = 0) :
    (createEditorButton option ⟨R, []⟩).2.console = [] := by
  induction option using JSValue.induct with
  | harr elems ih =>
    rw [createEditorButton_array]
    simp only [countTableOfContents] at h
    induction elems with
    | nil => simp [mapCreateEditorButton_nil]
    | cons x xs ihx =>
      simp only [countTableOfContentsList] at h
      rw [(mapCreateEditorButton_cons_empty x xs R).2,
        ih x (List.mem_cons_self _ _) (by omega),
        ihx (fun y hy => ih y (List.mem_cons_of_mem _ hy)) (by omega)]
      rfl
  | hother v hv =>
    cases v with
    | array elems => simp [instanceofArray] at hv
    | string key =>
      rw [createEditorButton_string_console]
      have hk : key ≠ "TableOfContents" := by
        intro hk
        simp [countTableOfContents, hk] at h
      simp [hk]
    | _ => rfl

/-- C14: the console calls made when an array is resolved are those made for its
elements, one element after the other. Hence, when `"TableOfContents"` is not
among the keys of the registry, resolving an array, nested or not, makes exactly
`2 * n` console calls, `n` being the number of occurrences of the string
`"TableOfContents"` in it, and an array without such an occurrence makes none,
whatever the registry. -/
theorem createEditorButton_array_console (R : List (String × JSValue))
    (c : List ConsoleCall) (S : List JSValue) :
    (createEditorButton (.array S) ⟨R, c⟩).2.console
        = c ++ (S.map (fun x => (createEditorButton x ⟨R, []⟩).2.console)).flatten
      ∧ ("TableOfContents" ∉ objectKeys R →
          ∃ out : List ConsoleCall,
            (createEditorButton (.array S) ⟨R, c⟩).2.console = c ++ out
              ∧ out.length = 2 * countTableOfContents (.array S))
      ∧ (countTableOfContents (.array S) = 0 →
          (createEditorButton (.array S) ⟨R, c⟩).2.console = c) := by
  refine ⟨?_, ?_, ?_⟩
  · rw [createEditorButton_console, createEditorButton_array, mapCreateEditorButton_console]
  · intro h
    exact ⟨(createEditorButton (.array S) ⟨R, []⟩).2.console,
      createEditorButton_console _ R c, createEditorButton_console_length R h _⟩
  · intro h
    rw [createEditorButton_console, createEditorButton_console_of_count_zero R _ h,
      List.append_nil]

theorem createEditorButton_array_console_witness :
    "TableOfContents" ∉ objectKeys [("Bold", JSValue.object 1)]
      ∧ countTableOfContents (.array [.string "TableOfContents",
          .array [.string "Bold", .string "TableOfContents"]]) = 2
      ∧ ∃ out : List ConsoleCall,
          (createEditorButton (.array [.string "TableOfContents",
              .array [.string "Bold", .string "TableOfContents"]])
            ⟨[("Bold", .object 1)], []⟩).2.console = [] ++ out
            ∧ out.length = 2 * countTableOfContents (.array [.string "TableOfContents",
                .array [.string "Bold", .string "TableOfContents"]]) :=
  ⟨by simp [objectKeys], rfl,
    (createEditorButton_array_console [("Bold", .object 1)] []
      [.string "TableOfContents", .array [.string "Bold", .string "TableOfContents"]]).2.1
      (by simp [objectKeys])⟩


end TextEditor
